import Mathlib

/-!
# Verification of the NostrMarketMCP event store and search engine

Shallow embedding of the core logic of `src/database_service/database.py`
(the event record store, resource URI resolver and search engine), of
`src/api/server.py` (`OpenAIAgent._deduplicate_profiles`) and of
`src/mcp/server.py` (`refresh_database`'s reconciliation step).

The store is backed by SQLite.  The embedding models the `events` table as a
`List Row` and gives the exact semantics of the two SQL statements used by
`Database.upsert_event`:

* `SQL_INSERT_EVENT` (`INSERT ... ON CONFLICT (kind, pubkey, d_tag) DO UPDATE
  SET <field> = CASE WHEN events.created_at < ?new THEN <new> ELSE <old> END
  ... WHERE d_tag IS NOT NULL`), used when the extracted d-tag is non-empty;
* `SQL_INSERT_EVENT_NO_D_TAG` (`INSERT OR REPLACE ... VALUES (..., NULL, ...)`),
  used when no d-tag is present or when it is the empty string (Python
  truthiness of `if d_tag:`).

A load-bearing fact of SQLite (documented under CREATE TABLE / unique
indexes): a `PRIMARY KEY` column other than `INTEGER PRIMARY KEY` may hold
`NULL`, and for the purposes of the implied unique index every `NULL` is
distinct from every other value *including other `NULL`s*.  Hence a row
inserted with `d_tag = NULL` never conflicts with any existing row, and
`INSERT OR REPLACE` of a `NULL`-d_tag row replaces nothing: it appends.
This behaviour was reproduced on the exact SQL statements of the source
before being fixed in the model (`sqlNullEq` below).

Strings are modelled with Lean `String`/`List Char`; the Python `str.lower`,
`str.strip` and `\s` character class are modelled on their ASCII fragment.
JSON (de)serialisation of `tags` round-trips `List (List String)`, so tags
are kept structured; opaque `content` payloads stay `String`, and the JSON
decoding done by readers is abstracted as an explicit `decode` parameter
(decode failure = `none`, matching the `except json.JSONDecodeError` skips).
-/

namespace NostrMarket

/-- One row of the `events` table
(`id, pubkey, kind, content, created_at, d_tag, tags`).
`d_tag = none` models SQL `NULL`; `tags` is the JSON-decoded tag list. -/
structure Row where
  id : String
  pubkey : String
  kind : Int
  content : String
  created_at : Int
  d_tag : Option String
  tags : List (List String)
deriving Repr, DecidableEq, Inhabited

/-- The arguments of one `Database.upsert_event(id, pubkey, kind, content,
created_at, tags)` call. -/
structure UpsertCall where
  id : String
  pubkey : String
  kind : Int
  content : String
  created_at : Int
  tags : List (List String)
deriving Repr, DecidableEq, Inhabited

/-- d-tag extraction in `upsert_event`: the first tag `t` with `len(t) >= 2`
and `t[0] == "d"` yields `t[1]`; absence yields `None`. -/
def extractDTag : List (List String) → Option String
  | [] => none
  | t :: rest =>
    match t with
    | marker :: value :: _ => if marker = "d" then some value else extractDTag rest
    | _ => extractDTag rest

/-- SQL equality as used by a unique index on a nullable column: `NULL` is
distinct from every value, including another `NULL`. -/
def sqlNullEq : Option String → Option String → Bool
  | some a, some b => a == b
  | _, _ => false

/-- Does `r` collide with `newRow` on the primary key `(kind, pubkey, d_tag)`?
Uses the SQLite treatment of `NULL` in unique indexes (`sqlNullEq`). -/
def pkConflicts (newRow r : Row) : Bool :=
  r.kind == newRow.kind && r.pubkey == newRow.pubkey && sqlNullEq r.d_tag newRow.d_tag

/-- Semantics of `INSERT OR REPLACE`: delete every row that would violate the
primary key, then insert the new row.  For a `NULL`-d_tag row nothing ever
conflicts, so this appends. -/
def insertOrReplace (newRow : Row) (st : List Row) : List Row :=
  (st.filter (fun r => !pkConflicts newRow r)) ++ [newRow]

/-- The row written by an upsert call, with the stored discriminator `d`. -/
def mkRow (c : UpsertCall) (d : Option String) : Row :=
  ⟨c.id, c.pubkey, c.kind, c.content, c.created_at, d, c.tags⟩

/-- Does row `r` carry the identity key `(kind, pubkey, some d)`?  (Conflict
target of `SQL_INSERT_EVENT`, which is only reached with a non-null `d_tag`.) -/
def keyMatches (kind : Int) (pubkey : String) (d : String) (r : Row) : Bool :=
  r.kind == kind && r.pubkey == pubkey && r.d_tag == some d

/-- The `DO UPDATE` clause of `SQL_INSERT_EVENT`: each of `id`, `content`,
`created_at`, `tags` is overwritten exactly when `events.created_at < ?new`
(all four CASEs share that condition); `kind`, `pubkey`, `d_tag` are kept. -/
def conflictUpdate (c : UpsertCall) (r : Row) : Row :=
  if r.created_at < c.created_at then
    ⟨c.id, r.pubkey, r.kind, c.content, c.created_at, r.d_tag, c.tags⟩
  else r

/-- Semantics of `SQL_INSERT_EVENT` for a call whose extracted d-tag is the
non-empty string `d`: insert, or on a primary-key conflict run the
`DO UPDATE` (its `WHERE d_tag IS NOT NULL` guard is always true on this path
since the conflicting row has `d_tag = d ≠ NULL`). -/
def upsertDTag (c : UpsertCall) (d : String) (st : List Row) : List Row :=
  if st.any (keyMatches c.kind c.pubkey d) then
    st.map (fun r => if keyMatches c.kind c.pubkey d r then conflictUpdate c r else r)
  else
    st ++ [mkRow c (some d)]

/-- `Database.upsert_event`: extract the d-tag; Python `if d_tag:` sends both
a missing d-tag and an empty-string d-tag down the `SQL_INSERT_EVENT_NO_D_TAG`
path (storing `d_tag = NULL`). -/
def upsert_event (c : UpsertCall) (st : List Row) : List Row :=
  match extractDTag c.tags with
  | some d => if d = "" then insertOrReplace (mkRow c none) st else upsertDTag c d st
  | none => insertOrReplace (mkRow c none) st

/-- All rows of the table carrying the identity key `(kind, pubkey, d)`
(`d = none` is the `NULL` discriminator), in table order. -/
def rowsWithKey (kind : Int) (pubkey : String) (d : Option String) (st : List Row) : List Row :=
  st.filter (fun r => r.kind == kind && r.pubkey == pubkey && r.d_tag == d)

/-- Run a sequence of `upsert_event` calls against an initial table. -/
def runCalls (s₀ : List Row) (cs : List UpsertCall) : List Row :=
  cs.foldl (fun st c => upsert_event c st) s₀

/-- A call carries the identity key `(kind, pubkey, d)`: its column values
match and its tag list yields exactly the discriminator `d`. -/
def callHasKey (kind : Int) (pubkey : String) (d : String) (c : UpsertCall) : Prop :=
  c.kind = kind ∧ c.pubkey = pubkey ∧ extractDTag c.tags = some d

instance (kind pubkey d c) : Decidable (callHasKey kind pubkey d c) := by
  unfold callHasKey; infer_instance

/-- The left-fold maximum of `created_at` over `c :: cs`, keeping the earlier
call on ties (the row that a sequence of d-tagged upserts converges to). -/
def bestCall : UpsertCall → List UpsertCall → UpsertCall
  | c, [] => c
  | c, c' :: rest => bestCall (if c.created_at < c'.created_at then c' else c) rest

theorem rowsWithKey_eq_filter (kind : Int) (pubkey : String) (d : String) (st : List Row) :
    rowsWithKey kind pubkey (some d) st = st.filter (keyMatches kind pubkey d) := rfl

theorem keyMatches_conflictUpdate (kind : Int) (pubkey : String) (d : String)
    (c : UpsertCall) (r : Row) :
    keyMatches kind pubkey d (conflictUpdate c r) = keyMatches kind pubkey d r := by
  unfold conflictUpdate keyMatches
  split <;> rfl

theorem keyMatches_mkRow (kind : Int) (pubkey : String) (d : String) (c : UpsertCall)
    (hc : callHasKey kind pubkey d c) : keyMatches kind pubkey d (mkRow c (some d)) = true := by
  obtain ⟨h1, h2, _⟩ := hc
  simp [keyMatches, mkRow, h1, h2]

theorem upsert_event_dtag (c : UpsertCall) (kind : Int) (pubkey : String) (d : String)
    (hc : callHasKey kind pubkey d c) (hd : d ≠ "") (st : List Row) :
    upsert_event c st = upsertDTag c d st := by
  unfold upsert_event
  rw [hc.2.2]
  simp [hd]

theorem upsertDTag_append (c : UpsertCall) (d : String) (st : List Row)
    (h : st.any (keyMatches c.kind c.pubkey d) = false) :
    upsertDTag c d st = st ++ [mkRow c (some d)] := by
  unfold upsertDTag
  rw [h]
  simp

theorem upsertDTag_map (c : UpsertCall) (d : String) (st : List Row)
    (h : st.any (keyMatches c.kind c.pubkey d) = true) :
    upsertDTag c d st =
      st.map (fun r => if keyMatches c.kind c.pubkey d r then conflictUpdate c r else r) := by
  unfold upsertDTag
  rw [h]
  simp

/-- Upsert of a d-tagged call into a table with no row for its key: the new
row is appended. -/
theorem rowsWithKey_upsert_insert (c : UpsertCall) (kind : Int) (pubkey : String) (d : String)
    (hc : callHasKey kind pubkey d c) (hd : d ≠ "") (st : List Row)
    (h0 : rowsWithKey kind pubkey (some d) st = []) :
    rowsWithKey kind pubkey (some d) (upsert_event c st) = [mkRow c (some d)] := by
  rw [upsert_event_dtag c kind pubkey d hc hd]
  rw [rowsWithKey_eq_filter] at h0
  have hnone : ∀ r ∈ st, ¬ keyMatches kind pubkey d r := List.filter_eq_nil_iff.mp h0
  have hany : st.any (keyMatches c.kind c.pubkey d) = false := by
    rw [← hc.1, ← hc.2.1] at hnone
    rcases h : st.any (keyMatches c.kind c.pubkey d) with _ | _
    · rfl
    · obtain ⟨x, hx, hpx⟩ := List.any_eq_true.mp h
      exact absurd hpx (by simpa using hnone x hx)
  rw [upsertDTag_append c d st hany, rowsWithKey_eq_filter, List.filter_append, h0]
  simp [keyMatches_mkRow kind pubkey d c hc]

/-- Upsert of a d-tagged call into a table that has rows for its key: every
such row goes through the `DO UPDATE` clause; nothing is added. -/
theorem rowsWithKey_upsert_update (c : UpsertCall) (kind : Int) (pubkey : String) (d : String)
    (hc : callHasKey kind pubkey d c) (hd : d ≠ "") (st : List Row)
    (h1 : rowsWithKey kind pubkey (some d) st ≠ []) :
    rowsWithKey kind pubkey (some d) (upsert_event c st) =
      (rowsWithKey kind pubkey (some d) st).map (conflictUpdate c) := by
  rw [upsert_event_dtag c kind pubkey d hc hd]
  rw [rowsWithKey_eq_filter] at h1 ⊢
  obtain ⟨r, hr⟩ : ∃ r, r ∈ st.filter (keyMatches kind pubkey d) :=
    List.exists_mem_of_ne_nil _ h1
  have hrm := List.mem_filter.mp hr
  have hany : st.any (keyMatches c.kind c.pubkey d) = true := by
    rw [hc.1, hc.2.1]
    exact List.any_eq_true.mpr ⟨r, hrm.1, hrm.2⟩
  rw [upsertDTag_map c d st hany, hc.1, hc.2.1]
  rw [List.filter_map, rowsWithKey_eq_filter]
  have hfilt : st.filter
      ((keyMatches kind pubkey d) ∘ (fun r => if keyMatches kind pubkey d r then conflictUpdate c r else r)) =
      st.filter (keyMatches kind pubkey d) := by
    apply List.filter_congr
    intro x _
    simp only [Function.comp_apply]
    by_cases hx : keyMatches kind pubkey d x
    · rw [if_pos hx, keyMatches_conflictUpdate]
    · rw [if_neg hx]
  rw [hfilt]
  apply List.map_congr_left
  intro x hxmem
  rw [if_pos (List.mem_filter.mp hxmem).2]

/-- Upserting a d-tagged call whose `created_at` does not exceed that of the
(unique) stored row for its key leaves the whole table unchanged: the
`DO UPDATE` CASE keeps every column. -/
theorem upsert_event_stale_noop (c : UpsertCall) (kind : Int) (pubkey : String) (d : String)
    (hc : callHasKey kind pubkey d c) (hd : d ≠ "") (st : List Row) (r : Row)
    (hst : rowsWithKey kind pubkey (some d) st = [r])
    (hle : c.created_at ≤ r.created_at) :
    upsert_event c st = st := by
  rw [upsert_event_dtag c kind pubkey d hc hd]
  rw [rowsWithKey_eq_filter] at hst
  have hrmem : r ∈ st.filter (keyMatches kind pubkey d) := by rw [hst]; exact List.mem_singleton.mpr rfl
  have hrm := List.mem_filter.mp hrmem
  have hany : st.any (keyMatches c.kind c.pubkey d) = true := by
    rw [hc.1, hc.2.1]
    exact List.any_eq_true.mpr ⟨r, hrm.1, hrm.2⟩
  rw [upsertDTag_map c d st hany, hc.1, hc.2.1]
  have : ∀ x ∈ st, (if keyMatches kind pubkey d x then conflictUpdate c x else x) = id x := by
    intro x hxmem
    by_cases hx : keyMatches kind pubkey d x
    · rw [if_pos hx]
      have : x ∈ st.filter (keyMatches kind pubkey d) := List.mem_filter.mpr ⟨hxmem, hx⟩
      rw [hst, List.mem_singleton] at this
      subst this
      unfold conflictUpdate
      rw [if_neg (by omega)]
      rfl
    · rw [if_neg hx]; rfl
  rw [List.map_congr_left this, List.map_id]

/-- Processing a run of same-key d-tagged calls from a table whose unique row
for the key is `mkRow c (some d)` converges to the best (max-`created_at`)
call seen so far. -/
theorem rowsWithKey_runCalls_best (kind : Int) (pubkey : String) (d : String) (hd : d ≠ "") :
    ∀ (cs : List UpsertCall) (st : List Row) (c : UpsertCall),
      (∀ c' ∈ cs, callHasKey kind pubkey d c') → callHasKey kind pubkey d c →
      rowsWithKey kind pubkey (some d) st = [mkRow c (some d)] →
      rowsWithKey kind pubkey (some d) (runCalls st cs) = [mkRow (bestCall c cs) (some d)]
  | [], st, c, _, _, hst => hst
  | c' :: cs', st, c, hall, hc, hst => by
    have hc' : callHasKey kind pubkey d c' := hall c' (List.mem_cons_self _ _)
    have hstep : rowsWithKey kind pubkey (some d) (upsert_event c' st) =
        [conflictUpdate c' (mkRow c (some d))] := by
      rw [rowsWithKey_upsert_update c' kind pubkey d hc' hd st (by rw [hst]; simp), hst]
      rfl
    have hconv : conflictUpdate c' (mkRow c (some d)) =
        mkRow (if c.created_at < c'.created_at then c' else c) (some d) := by
      unfold conflictUpdate mkRow
      by_cases hlt : c.created_at < c'.created_at
      · rw [if_pos hlt, if_pos hlt, hc.2.1.trans hc'.2.1.symm, hc.1.trans hc'.1.symm]
      · rw [if_neg hlt, if_neg hlt]
    show rowsWithKey kind pubkey (some d) (runCalls (upsert_event c' st) cs') = _
    rw [rowsWithKey_runCalls_best kind pubkey d hd cs' (upsert_event c' st)
      (if c.created_at < c'.created_at then c' else c)
      (fun x hx => hall x (List.mem_cons_of_mem _ hx))
      (by by_cases hlt : c.created_at < c'.created_at
          · rwa [if_pos hlt]
          · rwa [if_neg hlt])
      (by rw [hstep, hconv])]
    rfl

theorem bestCall_mem (c : UpsertCall) (cs : List UpsertCall) : bestCall c cs ∈ c :: cs := by
  induction cs generalizing c with
  | nil => exact List.mem_singleton.mpr rfl
  | cons c' rest ih =>
    have h := ih (if c.created_at < c'.created_at then c' else c)
    show bestCall (if c.created_at < c'.created_at then c' else c) rest ∈ _
    rcases List.mem_cons.mp h with h | h
    · rw [h]
      by_cases hlt : c.created_at < c'.created_at
      · rw [if_pos hlt]; exact List.mem_cons_of_mem _ (List.mem_cons_self _ _)
      · rw [if_neg hlt]; exact List.mem_cons_self _ _
    · exact List.mem_cons_of_mem _ (List.mem_cons_of_mem _ h)

theorem bestCall_ge (c : UpsertCall) (cs : List UpsertCall) :
    ∀ x ∈ c :: cs, x.created_at ≤ (bestCall c cs).created_at := by
  induction cs generalizing c with
  | nil =>
    intro x hx
    rw [List.mem_singleton.mp hx]
    exact le_refl _
  | cons c' rest ih =>
    intro x hx
    have hb : c.created_at ≤ (if c.created_at < c'.created_at then c' else c).created_at := by
      by_cases hlt : c.created_at < c'.created_at
      · rw [if_pos hlt]; omega
      · rw [if_neg hlt]
    have hb' : c'.created_at ≤ (if c.created_at < c'.created_at then c' else c).created_at := by
      by_cases hlt : c.created_at < c'.created_at
      · rw [if_pos hlt]
      · rw [if_neg hlt]; omega
    have hhead := ih (if c.created_at < c'.created_at then c' else c)
      _ (List.mem_cons_self _ _)
    rcases List.mem_cons.mp hx with h | h
    · subst h
      exact le_trans hb hhead
    · rcases List.mem_cons.mp h with h | h
      · subst h
        exact le_trans hb' hhead
      · exact ih _ x (List.mem_cons_of_mem _ h)

/-- Two members of a list with pairwise-distinct `created_at` that agree on
`created_at` are the same call. -/
theorem eq_of_mem_of_created_at_eq {l : List UpsertCall}
    (hpw : l.Pairwise (fun a b => a.created_at ≠ b.created_at)) :
    ∀ {x y : UpsertCall}, x ∈ l → y ∈ l → x.created_at = y.created_at → x = y := by
  induction l with
  | nil => intro x y hx _ _; exact absurd hx (List.not_mem_nil x)
  | cons a l' ih =>
    have hhead := (List.pairwise_cons.mp hpw).1
    have htail := (List.pairwise_cons.mp hpw).2
    intro x y hx hy hca
    rcases List.mem_cons.mp hx with hx | hx <;> rcases List.mem_cons.mp hy with hy | hy
    · rw [hx, hy]
    · exact absurd (hx ▸ hca) (hhead y hy)
    · exact absurd (hy ▸ hca.symm) (hhead x hx)
    · exact ih htail hx hy hca

theorem sqlNullEq_none (o : Option String) : sqlNullEq o none = false := by
  cases o <;> rfl

/-- `INSERT OR REPLACE` of a row with `d_tag = NULL` conflicts with nothing
(SQLite `NULL`-distinctness in unique indexes) and therefore appends. -/
theorem insertOrReplace_null (newRow : Row) (h : newRow.d_tag = none) (st : List Row) :
    insertOrReplace newRow st = st ++ [newRow] := by
  unfold insertOrReplace
  congr 1
  apply List.filter_eq_self.mpr
  intro r _
  simp [pkConflicts, h, sqlNullEq_none]

/-- C1, amended to identity keys whose extracted d-tag is a non-empty string.
For every finite sequence of `upsert_event` calls sharing one such identity
key `(kind, pubkey, d)`, with pairwise-distinct `created_at` values, started
from a table holding no row for that key: after the whole sequence — run in
any order (any permutation `cs'` of `cs`) — the table holds exactly the row
`(id, content, created_at, tags)` supplied by the call with the maximum
`created_at`, and re-delivering any call of the sequence changes nothing.
As frozen, over *all* identity keys, the claim is false: for the `NULL`
discriminator the `INSERT OR REPLACE` path appends a second row
(`C1_counterexample`). -/
theorem C1_order_independent_replaceable
    (kind : Int) (pubkey : String) (d : String) (hd : d ≠ "")
    (s₀ : List Row) (h₀ : rowsWithKey kind pubkey (some d) s₀ = [])
    (cs : List UpsertCall) (hne : cs ≠ [])
    (hall : ∀ c ∈ cs, callHasKey kind pubkey d c)
    (hdist : cs.Pairwise (fun a b => a.created_at ≠ b.created_at))
    (cmax : UpsertCall) (hmem : cmax ∈ cs)
    (hmax : ∀ c ∈ cs, c.created_at ≤ cmax.created_at)
    (cs' : List UpsertCall) (hperm : cs'.Perm cs) :
    rowsWithKey kind pubkey (some d) (runCalls s₀ cs') = [mkRow cmax (some d)] ∧
      ∀ c ∈ cs, upsert_event c (runCalls s₀ cs') = runCalls s₀ cs' := by
  cases cs' with
  | nil => exact absurd (hperm.symm.eq_nil) hne
  | cons c₀ cs₀ =>
    have hall' : ∀ c ∈ c₀ :: cs₀, callHasKey kind pubkey d c :=
      fun c hc => hall c (hperm.mem_iff.mp hc)
    have h1 : rowsWithKey kind pubkey (some d) (upsert_event c₀ s₀) = [mkRow c₀ (some d)] :=
      rowsWithKey_upsert_insert c₀ kind pubkey d (hall' c₀ (List.mem_cons_self _ _)) hd s₀ h₀
    have hrun : rowsWithKey kind pubkey (some d) (runCalls s₀ (c₀ :: cs₀)) =
        [mkRow (bestCall c₀ cs₀) (some d)] := by
      show rowsWithKey kind pubkey (some d) (runCalls (upsert_event c₀ s₀) cs₀) = _
      exact rowsWithKey_runCalls_best kind pubkey d hd cs₀ _ c₀
        (fun x hx => hall' x (List.mem_cons_of_mem _ hx))
        (hall' c₀ (List.mem_cons_self _ _)) h1
    have hbmem : bestCall c₀ cs₀ ∈ cs := hperm.mem_iff.mp (bestCall_mem c₀ cs₀)
    have hca : (bestCall c₀ cs₀).created_at = cmax.created_at :=
      le_antisymm (hmax _ hbmem)
        (bestCall_ge c₀ cs₀ cmax (hperm.mem_iff.mpr hmem))
    have hbeq : bestCall c₀ cs₀ = cmax := eq_of_mem_of_created_at_eq hdist hbmem hmem hca
    rw [hbeq] at hrun
    refine ⟨hrun, fun c hcmem => ?_⟩
    exact upsert_event_stale_noop c kind pubkey d (hall c hcmem) hd _
      (mkRow cmax (some d)) hrun (hmax c hcmem)

/-- Witness for C1: two product upserts under d-tag `"p1"` delivered in
reversed order still leave exactly the newer row; re-delivering the stale
call changes nothing. -/
theorem C1_witness :
    rowsWithKey 30018 "M" (some "p1")
        (runCalls [] [⟨"w2", "M", 30018, "newer", 20, [["d", "p1"]]⟩,
                      ⟨"w1", "M", 30018, "older", 10, [["d", "p1"]]⟩]) =
      [mkRow ⟨"w2", "M", 30018, "newer", 20, [["d", "p1"]]⟩ (some "p1")] ∧
    upsert_event (⟨"w1", "M", 30018, "older", 10, [["d", "p1"]]⟩ : UpsertCall)
        (runCalls [] [⟨"w2", "M", 30018, "newer", 20, [["d", "p1"]]⟩,
                      ⟨"w1", "M", 30018, "older", 10, [["d", "p1"]]⟩]) =
      runCalls [] [⟨"w2", "M", 30018, "newer", 20, [["d", "p1"]]⟩,
                   ⟨"w1", "M", 30018, "older", 10, [["d", "p1"]]⟩] := by
  have h := C1_order_independent_replaceable 30018 "M" "p1" (by decide) [] rfl
    [⟨"w1", "M", 30018, "older", 10, [["d", "p1"]]⟩,
     ⟨"w2", "M", 30018, "newer", 20, [["d", "p1"]]⟩]
    (by decide) (by decide) (by decide)
    ⟨"w2", "M", 30018, "newer", 20, [["d", "p1"]]⟩ (by decide) (by decide)
    [⟨"w2", "M", 30018, "newer", 20, [["d", "p1"]]⟩,
     ⟨"w1", "M", 30018, "older", 10, [["d", "p1"]]⟩] (by decide)
  exact ⟨h.1, h.2 _ (by decide)⟩

/-- Counterexample to C1 as frozen: for the `NULL`-discriminator identity key
`(0, "P", NULL)`, the sequence `[created_at = 100, created_at = 50]` leaves
*two* rows, not exactly the row of the maximum-`created_at` call, and
re-delivering a call appends yet another row. -/
theorem C1_counterexample :
    rowsWithKey 0 "P" none
        (runCalls [] [⟨"n1", "P", 0, "x", 100, []⟩, ⟨"n2", "P", 0, "y", 50, []⟩]) ≠
      [mkRow ⟨"n1", "P", 0, "x", 100, []⟩ none] ∧
    upsert_event (⟨"n1", "P", 0, "x", 100, []⟩ : UpsertCall)
        (runCalls [] [⟨"n1", "P", 0, "x", 100, []⟩, ⟨"n2", "P", 0, "y", 50, []⟩]) ≠
      runCalls [] [⟨"n1", "P", 0, "x", 100, []⟩, ⟨"n2", "P", 0, "y", 50, []⟩] := by
  constructor <;> decide

/-- C2 failing-input evaluation: the code's own docstring ("kind+pubkey+d_tag
is the primary key, and we keep the event with the highest created_at") and
comment ("just replace based on kind+pubkey") promise at most one row per
identity key, but after upserting two no-d-tag events for `(kind 0, "A")`
the table holds two rows with discriminator `NULL`: SQLite's unique index
treats `NULL` as distinct from `NULL`, so `INSERT OR REPLACE` never replaces
on this path. -/
theorem C2_null_key_not_unique :
    rowsWithKey 0 "A" none
        (runCalls [] [⟨"e1", "A", 0, "ann", 100, []⟩, ⟨"e2", "A", 0, "ann2", 50, []⟩]) =
      [mkRow ⟨"e1", "A", 0, "ann", 100, []⟩ none,
       mkRow ⟨"e2", "A", 0, "ann2", 50, []⟩ none] := by
  decide

/-- C3, amended to d-tagged events (non-empty extracted d-tag): if the table
holds the row `r` for identity key `(kind, pubkey, d)` and an `upsert_event`
call arrives for the same key with `created_at ≤ r.created_at`, the whole
table is unchanged — in particular the stored row's `id`, `content`,
`created_at` and `tags` are all unchanged.  For no-d-tag (singleton) events
the claim fails: the upsert appends a second `NULL`-discriminator row
(`C3_counterexample`). -/
theorem C3_stale_dtag_upsert_noop
    (kind : Int) (pubkey : String) (d : String) (hd : d ≠ "")
    (st : List Row) (r : Row) (c : UpsertCall)
    (hst : rowsWithKey kind pubkey (some d) st = [r])
    (hc : callHasKey kind pubkey d c)
    (hle : c.created_at ≤ r.created_at) :
    upsert_event c st = st :=
  upsert_event_stale_noop c kind pubkey d hc hd st r hst hle

/-- Witness for C3: a stall stored at `created_at = 20` under d-tag `"s1"`;
re-upserting at `created_at = 20` (equal) leaves the table unchanged. -/
theorem C3_witness :
    upsert_event (⟨"v2", "S", 30017, "late", 20, [["d", "s1"]]⟩ : UpsertCall)
        (runCalls [] [⟨"v1", "S", 30017, "early", 20, [["d", "s1"]]⟩]) =
      runCalls [] [⟨"v1", "S", 30017, "early", 20, [["d", "s1"]]⟩] := by
  exact C3_stale_dtag_upsert_noop 30017 "S" "s1" (by decide) _
    (mkRow ⟨"v1", "S", 30017, "early", 20, [["d", "s1"]]⟩ (some "s1"))
    ⟨"v2", "S", 30017, "late", 20, [["d", "s1"]]⟩ (by decide) (by decide) (by decide)

/-- Counterexample to C3 as frozen: the table holds a singleton (`NULL`
discriminator) row for `(0, "Q")` at timestamp 100; upserting the same key
at timestamp 50 is *not* a no-op — the table gains a second row. -/
theorem C3_counterexample :
    upsert_event (⟨"m2", "Q", 0, "older", 50, []⟩ : UpsertCall)
        (runCalls [] [⟨"m1", "Q", 0, "newer", 100, []⟩]) ≠
      runCalls [] [⟨"m1", "Q", 0, "newer", 100, []⟩] := by
  decide

/-- C10, amended: an event whose first discriminator tag is `["d", ""]` takes
the no-discriminator path (Python `if d_tag:` is false for the empty string)
and is stored with a `NULL` discriminator via `INSERT OR REPLACE`; exactly as
for an absent d-tag, that statement conflicts with no existing row — not with
a row whose discriminator is the empty string, and (contrary to the frozen
claim, due to SQLite `NULL`-distinctness) not with the author's singleton row
either: the row is appended and every existing row is kept unchanged. -/
theorem C10_empty_dtag_routes_null (c : UpsertCall) (st : List Row)
    (h : extractDTag c.tags = some "") :
    upsert_event c st = st ++ [mkRow c none] := by
  unfold upsert_event
  rw [h]
  simp only [if_pos rfl]
  exact insertOrReplace_null (mkRow c none) rfl st

/-- Witness for C10: an event tagged `["d", ""]` is appended with a `NULL`
discriminator, leaving the existing empty-string-discriminator row intact. -/
theorem C10_witness :
    upsert_event (⟨"g2", "G", 30018, "pay", 7, [["d", ""], ["t", "x"]]⟩ : UpsertCall)
        [⟨"g1", "G", 30018, "old", 3, some "", [["d", ""]]⟩] =
      [⟨"g1", "G", 30018, "old", 3, some "", [["d", ""]]⟩,
       mkRow ⟨"g2", "G", 30018, "pay", 7, [["d", ""], ["t", "x"]]⟩ none] := by
  exact C10_empty_dtag_routes_null _ _ (by decide)

/-- Counterexample to C10 as frozen: author `"B"` has a singleton kind-0 row
(timestamp 100); upserting a *newer* (timestamp 200) event tagged `["d", ""]`
does not contend with that singleton row — afterwards the `NULL` identity key
holds two rows. -/
theorem C10_counterexample :
    (rowsWithKey 0 "B" none
        (upsert_event (⟨"s2", "B", 0, "q", 200, [["d", ""]]⟩ : UpsertCall)
          (runCalls [] [⟨"s1", "B", 0, "p", 100, []⟩]))).length = 2 := by
  decide

/-! ## Resource URI resolver (`Database.get_resource_data`) and tag projection -/

/-- Insert into a descending-`created_at` list (model of `ORDER BY created_at
DESC`; SQLite leaves the order of ties unspecified, the model keeps table
order on ties). -/
def insertDesc (r : Row) : List Row → List Row
  | [] => [r]
  | x :: xs => if x.created_at < r.created_at then r :: x :: xs else x :: insertDesc r xs

def sortByCreatedAtDesc : List Row → List Row
  | [] => []
  | r :: rs => insertDesc r (sortByCreatedAtDesc rs)

/-- `SELECT ... FROM events WHERE kind = ? AND pubkey = ? ORDER BY created_at
DESC` (the shape of `SQL_GET_CATALOG` / `SQL_GET_STALLS` and of the profile
query before its `LIMIT 1`). -/
def kindRowsFor (kind : Int) (pubkey : String) (st : List Row) : List Row :=
  sortByCreatedAtDesc (st.filter (fun r => r.kind == kind && r.pubkey == pubkey))

/-- The profile lookup (`kind = 0 ... ORDER BY created_at DESC LIMIT 1`). -/
def latestProfileRow (st : List Row) (pubkey : String) : Option Row :=
  (kindRowsFor 0 pubkey st).head?

/-- `SQL_GET_PRODUCT` (`kind = 30018 AND pubkey = ? AND d_tag = ?`, no ORDER
BY): `fetchone` of the matches in table order. -/
def productRow (st : List Row) (pubkey d : String) : Option Row :=
  (st.filter (fun r => r.kind == 30018 && r.pubkey == pubkey && r.d_tag == some d)).head?

/-- `SQL_GET_STALL` (`kind = 30017 AND pubkey = ? AND d_tag = ?`). -/
def stallRow (st : List Row) (pubkey d : String) : Option Row :=
  (st.filter (fun r => r.kind == 30017 && r.pubkey == pubkey && r.d_tag == some d)).head?

/-- The closed business-category enum (the `ProfileType` values listed in
every category scan). -/
def businessTypes : List String :=
  ["retail", "restaurant", "service", "business", "entertainment", "other"]

/-- The category loop of `get_resource_data` (profile branch),
`search_profiles` and `list_profiles`: first tag `t` with `len(t) >= 2`,
`t[0] == "l"` and `t[1]` in the enum wins (the loop `break`s). -/
def firstBusinessType : List (List String) → Option String
  | [] => none
  | t :: rest =>
    match t with
    | marker :: value :: _ =>
      if marker = "l" ∧ value ∈ businessTypes then some value else firstBusinessType rest
    | _ => firstBusinessType rest

/-- The shapes returned by `get_resource_data`: the profile object (decoded
`content` kept opaque, with the row's `created_at` and the projected
`business_type` attached), the catalog/stalls collections, and single
product/stall objects. -/
inductive ResourceData where
  | profile (content : String) (created_at : Int) (business_type : Option String)
  | catalog (products : List String)
  | product (content : String)
  | stalls (entries : List (String × Option String × Int))
  | stall (content : String)
deriving Repr, DecidableEq

/-- `resource_uri.replace("nostr://", "")`: Python `str.replace` removes
every non-overlapping occurrence of the pattern, scanning left to right and
continuing after each replacement.  The pattern is the fixed literal
`"nostr://"`, matched here character by character. -/
def stripNostrScheme : List Char → List Char
  | 'n' :: 'o' :: 's' :: 't' :: 'r' :: ':' :: '/' :: '/' :: rest => stripNostrScheme rest
  | c :: cs => c :: stripNostrScheme cs
  | [] => []

/-- Python `str.split(sep)` for a one-character separator: split at every
occurrence, keeping empty segments (`"".split("/") == [""]`,
`"a/".split("/") == ["a", ""]`). -/
def splitOnChar (sep : Char) : List Char → List (List Char)
  | [] => [[]]
  | c :: cs =>
    let r := splitOnChar sep cs
    if c = sep then [] :: r else (c :: r.headD []) :: r.tail

/-- `resource_uri.replace("nostr://", "").split("/")`. -/
def uriSegments (uri : String) : List String :=
  (splitOnChar '/' (stripNostrScheme uri.data)).map (fun cs => String.mk cs)

/-- `Database.get_resource_data`.  The URI is parsed by
`uri.replace("nostr://", "").split("/")` (modelled by `uriSegments`); fewer
than two segments, an unrecognized resource type, and a `product`/`stall` URI
without a third segment all return `None`, as do zero-row
profile/product/stall lookups; `catalog`/`stalls` return a (possibly empty)
collection.  JSON decoding of `content` by the caller-facing branches is kept
opaque (a decode failure would also surface as `None` through the `except`
clause). -/
def get_resource_data (st : List Row) (uri : String) : Option ResourceData :=
  match uriSegments uri with
  | pk :: rtype :: rest =>
    if rtype = "profile" then
      match latestProfileRow st pk with
      | none => none
      | some r => some (.profile r.content r.created_at (firstBusinessType r.tags))
    else if rtype = "catalog" then
      some (.catalog ((kindRowsFor 30018 pk st).map (fun r => r.content)))
    else if rtype = "product" then
      match rest with
      | d :: _ => (productRow st pk d).map (fun r => .product r.content)
      | [] => none
    else if rtype = "stalls" then
      some (.stalls ((kindRowsFor 30017 pk st).map (fun r => (r.content, r.d_tag, r.created_at))))
    else if rtype = "stall" then
      match rest with
      | d :: _ => (stallRow st pk d).map (fun r => .stall r.content)
      | [] => none
    else none
  | _ => none

/-- C4, amended.  Parsing as frozen: fewer than two URI segments gives
`None`; an unrecognized resource type gives `None`; a well-formed
profile/product/stall URI with zero rows gives `None`; a catalog/stalls URI
with zero rows gives an empty collection object (never a not-found).  Because
invalid requests and zero-row lookups are both reported as the very same
`None`, the two outcomes are *not* distinguishable by the caller
(`C4_counterexample`); the distinction lives only in the server-side log
message. -/
theorem C4_resolver_outcomes (st : List Row) (uri : String) :
    ((uriSegments uri).length < 2 → get_resource_data st uri = none) ∧
    (∀ pk rtype rest, uriSegments uri = pk :: rtype :: rest →
      rtype ∉ (["profile", "catalog", "product", "stalls", "stall"] : List String) →
      get_resource_data st uri = none) ∧
    (∀ pk rest, uriSegments uri = pk :: "profile" :: rest →
      latestProfileRow st pk = none → get_resource_data st uri = none) ∧
    (∀ pk d rest, uriSegments uri = pk :: "product" :: d :: rest →
      productRow st pk d = none → get_resource_data st uri = none) ∧
    (∀ pk d rest, uriSegments uri = pk :: "stall" :: d :: rest →
      stallRow st pk d = none → get_resource_data st uri = none) ∧
    (∀ pk rest, uriSegments uri = pk :: "catalog" :: rest →
      kindRowsFor 30018 pk st = [] →
      get_resource_data st uri = some (.catalog [])) ∧
    (∀ pk rest, uriSegments uri = pk :: "stalls" :: rest →
      kindRowsFor 30017 pk st = [] →
      get_resource_data st uri = some (.stalls [])) := by
  refine ⟨?_, ?_, ?_, ?_, ?_, ?_, ?_⟩
  · intro hlen
    unfold get_resource_data
    rcases hsg : uriSegments uri with _ | ⟨a, _ | ⟨b, tl⟩⟩
    · rfl
    · rfl
    · rw [hsg] at hlen
      simp only [List.length_cons] at hlen
      omega
  · intro pk rtype rest hsg hmem
    have h1 : rtype ≠ "profile" := by rintro rfl; exact hmem (by simp)
    have h2 : rtype ≠ "catalog" := by rintro rfl; exact hmem (by simp)
    have h3 : rtype ≠ "product" := by rintro rfl; exact hmem (by simp)
    have h4 : rtype ≠ "stalls" := by rintro rfl; exact hmem (by simp)
    have h5 : rtype ≠ "stall" := by rintro rfl; exact hmem (by simp)
    unfold get_resource_data
    rw [hsg]
    simp [h1, h2, h3, h4, h5]
  · intro pk rest hsg hrow
    unfold get_resource_data
    rw [hsg]
    simp [hrow]
  · intro pk d rest hsg hrow
    unfold get_resource_data
    rw [hsg]
    simp [hrow]
  · intro pk d rest hsg hrow
    unfold get_resource_data
    rw [hsg]
    simp [hrow]
  · intro pk rest hsg hrows
    unfold get_resource_data
    rw [hsg]
    simp [hrows]
  · intro pk rest hsg hrows
    unfold get_resource_data
    rw [hsg]
    simp [hrows]

/-- Witness for C4: an unrecognized resource type resolves to `None`. -/
theorem C4_witness :
    get_resource_data [] "nostr://merchant/unknown" = none :=
  (C4_resolver_outcomes [] "nostr://merchant/unknown").2.1 "merchant" "unknown" []
    (by decide) (by decide)

/-- Counterexample to C4 as frozen: on an empty store, the invalid request
`nostr://merchant/bogus` (unknown resource type) and the well-formed,
zero-row request `nostr://merchant/profile` both return the very same `None`
— the caller cannot distinguish invalid from not-found — and the well-formed
zero-row `nostr://merchant/catalog` returns an empty catalog object rather
than a not-found. -/
theorem C4_counterexample :
    get_resource_data [] "nostr://merchant/bogus" = none ∧
    get_resource_data [] "nostr://merchant/profile" = none ∧
    get_resource_data [] "nostr://merchant/catalog" =
      some (.catalog []) := by
  exact ⟨by decide, by decide, by decide⟩

/-! ## Search & listing engine (`search_profiles`, `search_products`,
`search_business_profiles`, `list_profiles`) -/

/-- The ASCII fragment of Python's `\s` class (also the default strip set of
`str.strip`): space, tab, newline, carriage return, vertical tab, form
feed. -/
def isPySpace (c : Char) : Bool :=
  c == ' ' || c == '\t' || c == '\n' || c == '\r' || c == '\x0b' || c == '\x0c'

/-- A separator character of `re.split(r"[,\s]+", query)`. -/
def isSepChar (c : Char) : Bool := c == ',' || isPySpace c

/-- `str.lower()` on the ASCII fragment. -/
def lowerChars (s : String) : List Char := s.data.map Char.toLower

/-- `str.strip()` on the ASCII fragment. -/
def stripChars (s : List Char) : List Char :=
  ((s.dropWhile isPySpace).reverse.dropWhile isPySpace).reverse

/-- Tokenizer for `[t.strip() for t in re.split(r"[,\s]+", q) if t.strip()]`:
the separator class and the strip set overlap so the result is exactly the
maximal runs of non-separator characters, in order.  `acc` holds the
(reversed) run currently being read. -/
def splitTermsAux (acc : List Char) : List Char → List (List Char)
  | [] => if acc.isEmpty then [] else [acc.reverse]
  | c :: cs =>
    if isSepChar c then
      if acc.isEmpty then splitTermsAux [] cs else acc.reverse :: splitTermsAux [] cs
    else splitTermsAux (c :: acc) cs

def splitTerms (s : List Char) : List (List Char) := splitTermsAux [] s

/-- `query.lower()` followed by the term split of `search_profiles`. -/
def queryTerms (q : String) : List (List Char) := splitTerms (lowerChars q)

/-- Python `needle in haystack` (substring containment), executable. -/
def containsSubstr : List Char → List Char → Bool
  | [], needle => needle.isEmpty
  | h :: t, needle => needle.isPrefixOf (h :: t) || containsSubstr t needle

/-- `" ".join(fields)`. -/
def joinSp : List (List Char) → List Char
  | [] => []
  | [x] => x
  | x :: xs => x ++ ' ' :: joinSp xs

/-- The profile `content` fields the search and dedup paths read;
`json.loads(...).get(key, default)` defaults are modelled by the structure
defaults (string values assumed — the code coerces with `str(...)`). -/
structure ProfileContent where
  name : String := ""
  display_name : String := ""
  about : String := ""
  nip05 : String := ""
  country : String := ""
  city : String := ""
  state : String := ""
  zip_code : String := ""
  street : String := ""
  hashtags : List String := []
  website : String := ""
  environment : String := ""
deriving Repr, DecidableEq, Inhabited

/-- A `search_profiles` result: the decoded profile dict enriched with
`pubkey`, `business_type` and `tags`. -/
structure ProfileHit where
  profile : ProfileContent
  pubkey : String
  business_type : Option String
  tags : List (List String)
deriving Repr, DecidableEq, Inhabited

/-- `" ".join(str(tag).lower() for tag in hashtags if tag)`. -/
def hashtagsText (hashtags : List String) : List Char :=
  joinSp ((hashtags.filter (fun h => h ≠ "")).map lowerChars)

/-- The lowered values of the event's `"t"` tags, in tag order. -/
def eventHashtagChunks (tags : List (List String)) : List (List Char) :=
  tags.filterMap (fun t =>
    match t with
    | marker :: value :: _ => if marker = "t" then some (lowerChars value) else none
    | _ => none)

/-- `" ".join(event_hashtags)`. -/
def eventHashtagsText (tags : List (List String)) : List Char :=
  joinSp (eventHashtagChunks tags)

/-- The `searchable_text` of `search_profiles`: eleven lowered components
joined with single spaces. -/
def searchableText (pc : ProfileContent) (tags : List (List String)) : List Char :=
  joinSp [lowerChars pc.name, lowerChars pc.display_name, lowerChars pc.about,
          lowerChars pc.nip05, lowerChars pc.country, lowerChars pc.city,
          lowerChars pc.state, lowerChars pc.zip_code, lowerChars pc.street,
          hashtagsText pc.hashtags, eventHashtagsText tags]

/-- The searchable fields as the spec enumerates them: the nine scalar
fields, every content hashtag, and every event `"t"`-tag hashtag (all
lowered). -/
def searchFields (pc : ProfileContent) (tags : List (List String)) : List (List Char) :=
  [lowerChars pc.name, lowerChars pc.display_name, lowerChars pc.about,
   lowerChars pc.nip05, lowerChars pc.country, lowerChars pc.city,
   lowerChars pc.state, lowerChars pc.zip_code, lowerChars pc.street] ++
  (pc.hashtags.filter (fun h => h ≠ "")).map lowerChars ++
  eventHashtagChunks tags

/-- The match test of `search_profiles`: ANY query term contained in the
joined searchable text. -/
def profileMatches (q : String) (pc : ProfileContent) (tags : List (List String)) : Bool :=
  (queryTerms q).any (fun t => containsSubstr (searchableText pc tags) t)

/-- `Database.search_profiles`: scan kind-0 rows in `created_at`-descending
order, skip rows whose content does not decode
(`except json.JSONDecodeError: pass`), keep rows matched by any query term,
each enriched with `pubkey`, the first-match `business_type`, and `tags`.
`decode` abstracts `json.loads` on the opaque content payload. -/
def search_profiles (decode : String → Option ProfileContent) (q : String)
    (st : List Row) : List ProfileHit :=
  (sortByCreatedAtDesc (st.filter (fun r => r.kind == 0))).filterMap (fun r =>
    match decode r.content with
    | none => none
    | some pc =>
      if profileMatches q pc r.tags then
        some ⟨pc, r.pubkey, firstBusinessType r.tags, r.tags⟩
      else none)

/-- The product `content` fields `search_products` reads. -/
structure ProductContent where
  name : String := ""
  description : String := ""
deriving Repr, DecidableEq, Inhabited

/-- A `search_products` result. -/
structure ProductHit where
  product : ProductContent
  pubkey : String
  d_tag : Option String
  created_at : Int
  tags : List (List String)
deriving Repr, DecidableEq, Inhabited

/-- `Database.search_products`: kind-30018 rows (optionally restricted to one
merchant pubkey), `created_at` descending; the *whole* lowered query string
must be a substring of the lowered name or lowered description — this path
performs no term splitting. -/
def search_products (decode : String → Option ProductContent) (q : String)
    (pubkey : Option String) (st : List Row) : List ProductHit :=
  (sortByCreatedAtDesc (st.filter (fun r =>
      r.kind == 30018 && (match pubkey with | some pk => r.pubkey == pk | none => true)))).filterMap
    (fun r =>
      match decode r.content with
      | none => none
      | some pd =>
        if containsSubstr (lowerChars pd.name) (lowerChars q) ||
            containsSubstr (lowerChars pd.description) (lowerChars q) then
          some ⟨pd, r.pubkey, r.d_tag, r.created_at, r.tags⟩
        else none)

theorem containsSubstr_iff (needle haystack : List Char) :
    containsSubstr haystack needle = true ↔ needle <:+: haystack := by
  induction haystack with
  | nil =>
    simp [containsSubstr, List.isEmpty_iff]
  | cons h t ih =>
    simp [containsSubstr, ih, List.infix_cons_iff]

theorem splitTermsAux_sound :
    ∀ (cs acc : List Char), (∀ c ∈ acc, isSepChar c = false) →
      ∀ t ∈ splitTermsAux acc cs, t ≠ [] ∧ ∀ c ∈ t, isSepChar c = false
  | [], acc, hacc, t, ht => by
    unfold splitTermsAux at ht
    by_cases hne : acc.isEmpty
    · rw [if_pos hne] at ht
      exact absurd ht (List.not_mem_nil t)
    · rw [if_neg hne] at ht
      rw [List.mem_singleton] at ht
      subst ht
      refine ⟨fun h => hne ?_, fun c hc => hacc c (List.mem_reverse.mp hc)⟩
      rw [List.isEmpty_iff]
      simpa using congrArg List.reverse h
  | c :: cs, acc, hacc, t, ht => by
    unfold splitTermsAux at ht
    by_cases hsep : isSepChar c
    · rw [if_pos hsep] at ht
      by_cases hne : acc.isEmpty
      · rw [if_pos hne] at ht
        exact splitTermsAux_sound cs [] (by simp) t ht
      · rw [if_neg hne] at ht
        rcases List.mem_cons.mp ht with ht | ht
        · subst ht
          refine ⟨fun h => hne ?_, fun x hx => hacc x (List.mem_reverse.mp hx)⟩
          rw [List.isEmpty_iff]
          simpa using congrArg List.reverse h
        · exact splitTermsAux_sound cs [] (by simp) t ht
    · rw [if_neg hsep] at ht
      refine splitTermsAux_sound cs (c :: acc) ?_ t ht
      intro x hx
      rcases List.mem_cons.mp hx with hx | hx
      · subst hx
        simpa using hsep
      · exact hacc x hx

theorem queryTerms_sound (q : String) :
    ∀ t ∈ queryTerms q, t ≠ [] ∧ ∀ c ∈ t, isSepChar c = false :=
  fun t ht => splitTermsAux_sound (lowerChars q) [] (by simp) t ht

theorem space_not_mem_of_sound {t : List Char} (h : ∀ c ∈ t, isSepChar c = false) :
    (' ' : Char) ∉ t := by
  intro hmem
  have := h ' ' hmem
  simp [isSepChar, isPySpace] at this

theorem mem_insertDesc (r x : Row) (l : List Row) :
    x ∈ insertDesc r l ↔ x = r ∨ x ∈ l := by
  induction l with
  | nil => simp [insertDesc]
  | cons y ys ih =>
    unfold insertDesc
    by_cases hlt : y.created_at < r.created_at
    · rw [if_pos hlt]
      simp
    · rw [if_neg hlt]
      simp only [List.mem_cons, ih]
      tauto

theorem mem_sortByCreatedAtDesc (x : Row) (l : List Row) :
    x ∈ sortByCreatedAtDesc l ↔ x ∈ l := by
  induction l with
  | nil => simp [sortByCreatedAtDesc]
  | cons y ys ih =>
    unfold sortByCreatedAtDesc
    rw [mem_insertDesc, ih]
    simp

theorem prefix_of_append_cons {t x y : List Char} {c : Char} (hc : c ∉ t)
    (h : t <+: x ++ c :: y) : t <+: x := by
  induction x generalizing t with
  | nil =>
    cases t with
    | nil => exact List.nil_prefix
    | cons a t' =>
      rw [List.nil_append, List.cons_prefix_cons] at h
      exact absurd (h.1 ▸ List.mem_cons_self a t') hc
  | cons b x' ih =>
    cases t with
    | nil => exact List.nil_prefix
    | cons a t' =>
      rw [List.cons_append, List.cons_prefix_cons] at h
      refine List.cons_prefix_cons.mpr ⟨h.1, ih ?_ h.2⟩
      exact fun hmem => hc (List.mem_cons_of_mem _ hmem)

theorem infix_of_append_cons {t x y : List Char} {c : Char} (hc : c ∉ t)
    (h : t <:+: x ++ c :: y) : t <:+: x ∨ t <:+: y := by
  induction x generalizing t with
  | nil =>
    rw [List.nil_append] at h
    rcases List.infix_cons_iff.mp h with hp | hi
    · cases t with
      | nil => exact Or.inl List.nil_infix
      | cons a t' =>
        rw [List.cons_prefix_cons] at hp
        exact absurd (hp.1 ▸ List.mem_cons_self a t') hc
    · exact Or.inr hi
  | cons b x' ih =>
    rw [List.cons_append] at h
    rcases List.infix_cons_iff.mp h with hp | hi
    · cases t with
      | nil => exact Or.inl List.nil_infix
      | cons a t' =>
        rw [List.cons_prefix_cons] at hp
        have hpre : t' <+: x' :=
          prefix_of_append_cons (fun hmem => hc (List.mem_cons_of_mem _ hmem)) hp.2
        exact Or.inl (List.IsPrefix.isInfix (List.cons_prefix_cons.mpr ⟨hp.1, hpre⟩))
    · rcases ih hc hi with h1 | h2
      · exact Or.inl (h1.trans (List.IsSuffix.isInfix (List.suffix_cons b x')))
      · exact Or.inr h2

theorem joinSp_cons2 (x y : List Char) (r : List (List Char)) :
    joinSp (x :: y :: r) = x ++ ' ' :: joinSp (y :: r) := rfl

theorem infix_joinSp {t : List Char} (ht : t ≠ []) (hsp : (' ' : Char) ∉ t) :
    ∀ fs : List (List Char), t <:+: joinSp fs ↔ ∃ f ∈ fs, t <:+: f
  | [] => by
    simp only [joinSp, List.infix_nil, List.not_mem_nil, ht]
    simp
  | [x] => by
    simp [joinSp]
  | x :: y :: r => by
    rw [joinSp_cons2]
    constructor
    · intro h
      rcases infix_of_append_cons hsp h with h1 | h2
      · exact ⟨x, List.mem_cons_self _ _, h1⟩
      · obtain ⟨f, hf, hff⟩ := (infix_joinSp ht hsp (y :: r)).mp h2
        exact ⟨f, List.mem_cons_of_mem _ hf, hff⟩
    · rintro ⟨f, hf, hff⟩
      rcases List.mem_cons.mp hf with hfx | hf'
      · subst hfx
        exact hff.trans (List.IsPrefix.isInfix (List.prefix_append f (' ' :: joinSp (y :: r))))
      · have hJ : t <:+: joinSp (y :: r) := (infix_joinSp ht hsp (y :: r)).mpr ⟨f, hf', hff⟩
        refine hJ.trans (List.IsSuffix.isInfix ?_)
        exact (List.suffix_cons ' ' (joinSp (y :: r))).trans (List.suffix_append x _)

/-- A non-empty space-free term is a substring of the joined
`searchable_text` exactly when it is a substring of one of the searchable
fields (it cannot straddle a join boundary without containing the space). -/
theorem infix_searchableText_iff {t : List Char} (ht : t ≠ []) (hsp : (' ' : Char) ∉ t)
    (pc : ProfileContent) (tags : List (List String)) :
    t <:+: searchableText pc tags ↔ ∃ f ∈ searchFields pc tags, t <:+: f := by
  unfold searchableText
  rw [infix_joinSp ht hsp]
  unfold searchFields
  constructor
  · rintro ⟨f, hf, hff⟩
    simp only [List.mem_cons, List.not_mem_nil, or_false] at hf
    rcases hf with rfl | rfl | rfl | rfl | rfl | rfl | rfl | rfl | rfl | rfl | rfl
    · exact ⟨_, List.mem_append_left _ (List.mem_append_left _ (by simp)), hff⟩
    · exact ⟨_, List.mem_append_left _ (List.mem_append_left _ (by simp)), hff⟩
    · exact ⟨_, List.mem_append_left _ (List.mem_append_left _ (by simp)), hff⟩
    · exact ⟨_, List.mem_append_left _ (List.mem_append_left _ (by simp)), hff⟩
    · exact ⟨_, List.mem_append_left _ (List.mem_append_left _ (by simp)), hff⟩
    · exact ⟨_, List.mem_append_left _ (List.mem_append_left _ (by simp)), hff⟩
    · exact ⟨_, List.mem_append_left _ (List.mem_append_left _ (by simp)), hff⟩
    · exact ⟨_, List.mem_append_left _ (List.mem_append_left _ (by simp)), hff⟩
    · exact ⟨_, List.mem_append_left _ (List.mem_append_left _ (by simp)), hff⟩
    · obtain ⟨g, hg, hgg⟩ := (infix_joinSp ht hsp _).mp hff
      exact ⟨g, List.mem_append_left _ (List.mem_append_right _ hg), hgg⟩
    · obtain ⟨g, hg, hgg⟩ := (infix_joinSp ht hsp _).mp hff
      exact ⟨g, List.mem_append_right _ hg, hgg⟩
  · rintro ⟨f, hf, hff⟩
    rcases List.mem_append.mp hf with hf9 | hfe
    · rcases List.mem_append.mp hf9 with hf9 | hfh
      · exact ⟨f, by simp only [List.mem_cons] at hf9 ⊢; tauto, hff⟩
      · refine ⟨hashtagsText pc.hashtags, by simp, ?_⟩
        exact (infix_joinSp ht hsp _).mpr ⟨f, hfh, hff⟩
    · refine ⟨eventHashtagsText tags, by simp, ?_⟩
      exact (infix_joinSp ht hsp _).mpr ⟨f, hfe, hff⟩

/-- C6, amended.  `search_profiles` lower-cases the query and splits it on
whitespace/comma into terms; a stored kind-0 row (whose content decodes) is
returned exactly when at least one term is a substring of at least one
searchable field.  `search_products`, however, performs no term split: a
kind-30018 row is returned exactly when the *whole* lower-cased query is a
substring of the lowered name or lowered description, so `"red, shirt"` does
not match a product that merely contains "red" (`C6_counterexample`). -/
theorem C6_search_or_of_terms
    (decode : String → Option ProfileContent) (decodeP : String → Option ProductContent)
    (q : String) (st : List Row) :
    (∀ r ∈ st, r.kind = 0 → ∀ pc, decode r.content = some pc →
      ((⟨pc, r.pubkey, firstBusinessType r.tags, r.tags⟩ : ProfileHit) ∈
          search_profiles decode q st ↔
        ∃ t ∈ queryTerms q, ∃ f ∈ searchFields pc r.tags, t <:+: f)) ∧
    (∀ r ∈ st, r.kind = 30018 → ∀ pd, decodeP r.content = some pd →
      ((⟨pd, r.pubkey, r.d_tag, r.created_at, r.tags⟩ : ProductHit) ∈
          search_products decodeP q none st ↔
        (lowerChars q <:+: lowerChars pd.name ∨
          lowerChars q <:+: lowerChars pd.description))) := by
  constructor
  · intro r hr hk pc hdec
    constructor
    · intro hmem
      obtain ⟨r', hr', hf⟩ := List.mem_filterMap.mp hmem
      rcases hdec' : decode r'.content with _ | pc'
      · simp only [hdec'] at hf
        exact Option.noConfusion hf
      · simp only [hdec'] at hf
        by_cases hm : profileMatches q pc' r'.tags
        · rw [if_pos hm] at hf
          injection hf with hf
          have hpc : pc' = pc := congrArg ProfileHit.profile hf
          have htags : r'.tags = r.tags := congrArg ProfileHit.tags hf
          rw [hpc, htags] at hm
          obtain ⟨t, ht, hct⟩ := List.any_eq_true.mp hm
          have hsound := queryTerms_sound q t ht
          have hinf := (containsSubstr_iff t _).mp hct
          exact ⟨t, ht, (infix_searchableText_iff hsound.1
            (space_not_mem_of_sound hsound.2) pc r.tags).mp hinf⟩
        · rw [if_neg hm] at hf
          cases hf
    · rintro ⟨t, ht, f, hfmem, hinf⟩
      apply List.mem_filterMap.mpr
      refine ⟨r, ?_, ?_⟩
      · rw [mem_sortByCreatedAtDesc]
        exact List.mem_filter.mpr ⟨hr, by simp [hk]⟩
      · simp only [hdec]
        have hsound := queryTerms_sound q t ht
        have hm : profileMatches q pc r.tags = true := by
          apply List.any_eq_true.mpr
          refine ⟨t, ht, (containsSubstr_iff t _).mpr ?_⟩
          exact (infix_searchableText_iff hsound.1
            (space_not_mem_of_sound hsound.2) pc r.tags).mpr ⟨f, hfmem, hinf⟩
        rw [if_pos hm]
  · intro r hr hk pd hdec
    constructor
    · intro hmem
      obtain ⟨r', hr', hf⟩ := List.mem_filterMap.mp hmem
      rcases hdec' : decodeP r'.content with _ | pd'
      · simp only [hdec'] at hf
        exact Option.noConfusion hf
      · simp only [hdec'] at hf
        by_cases hm : containsSubstr (lowerChars pd'.name) (lowerChars q) ||
            containsSubstr (lowerChars pd'.description) (lowerChars q)
        · rw [if_pos hm] at hf
          injection hf with hf
          have hpd : pd' = pd := congrArg ProductHit.product hf
          rw [hpd] at hm
          rcases Bool.or_eq_true _ _ |>.mp hm with h | h
          · exact Or.inl ((containsSubstr_iff _ _).mp h)
          · exact Or.inr ((containsSubstr_iff _ _).mp h)
        · rw [if_neg hm] at hf
          cases hf
    · intro hq
      apply List.mem_filterMap.mpr
      refine ⟨r, ?_, ?_⟩
      · rw [mem_sortByCreatedAtDesc]
        exact List.mem_filter.mpr ⟨hr, by simp [hk]⟩
      · simp only [hdec]
        have hm : (containsSubstr (lowerChars pd.name) (lowerChars q) ||
            containsSubstr (lowerChars pd.description) (lowerChars q)) = true := by
          rcases hq with h | h
          · exact Bool.or_eq_true _ _ |>.mpr (Or.inl ((containsSubstr_iff _ _).mpr h))
          · exact Bool.or_eq_true _ _ |>.mpr (Or.inr ((containsSubstr_iff _ _).mpr h))
        rw [if_pos hm]

/-- Witness for C6: the profile `"Red Hats"` is returned for the query
`"red, shirt"` because the term `red` is a substring of the name field. -/
theorem C6_witness :
    (⟨{name := "Red Hats"}, "pkA", none, []⟩ : ProfileHit) ∈
      search_profiles (fun s => if s = "pc-red-hats" then some {name := "Red Hats"} else none)
        "red, shirt" [⟨"i1", "pkA", 0, "pc-red-hats", 5, none, []⟩] := by
  refine ((C6_search_or_of_terms
      (fun s => if s = "pc-red-hats" then some {name := "Red Hats"} else none)
      (fun _ => none) "red, shirt"
      [⟨"i1", "pkA", 0, "pc-red-hats", 5, none, []⟩]).1
      ⟨"i1", "pkA", 0, "pc-red-hats", 5, none, []⟩ (by decide) (by decide)
      {name := "Red Hats"} (by decide)).mpr ?_
  exact ⟨['r', 'e', 'd'], by decide, lowerChars "Red Hats", by decide, by decide⟩

/-- Counterexample to C6 as frozen: for `search_products`, the query
`"red, shirt"` returns nothing although the term `red` is a substring of the
stored product name `"Red T-Shirt"` — the whole query string
`"red, shirt"` is not a substring of name or description, and this path
never splits the query into terms. -/
theorem C6_counterexample :
    search_products
        (fun s => if s = "ct-shirt" then
            some ⟨"Red T-Shirt", "A comfortable cotton t-shirt"⟩ else none)
        "red, shirt" none
        [⟨"e7", "m1", 30018, "ct-shirt", 1000, some "prod1", [["d", "prod1"]]⟩] = [] ∧
      ∃ t ∈ queryTerms "red, shirt", t <:+: lowerChars "Red T-Shirt" := by
  constructor
  · decide
  · exact ⟨['r', 'e', 'd'], by decide, by decide⟩

/-- A `list_profiles` entry: decoded content enriched with `pubkey`,
`created_at`, the first-match `business_type`, and `tags`. -/
structure ProfileListEntry where
  profile : ProfileContent
  pubkey : String
  created_at : Int
  business_type : Option String
  tags : List (List String)
deriving Repr, DecidableEq, Inhabited

/-- `Database.list_profiles`: kind-0 rows, `created_at` descending, the SQL
`LIMIT ? OFFSET ?` slice, rows that fail to decode skipped. -/
def list_profiles (decode : String → Option ProfileContent) (limit offset : Nat)
    (st : List Row) : List ProfileListEntry :=
  (((sortByCreatedAtDesc (st.filter (fun r => r.kind == 0))).drop offset).take limit).filterMap
    (fun r =>
      match decode r.content with
      | none => none
      | some pc => some ⟨pc, r.pubkey, r.created_at, firstBusinessType r.tags, r.tags⟩)

/-- One step of the `search_business_profiles` tag loop: an
`["L", "business.type"]` tag sets the flag, an enum-valued `["l", v]` tag
*overwrites* the running business type — this loop has no `break`. -/
def sbpScanStep (acc : Bool × Option String) (t : List String) : Bool × Option String :=
  match t with
  | marker :: value :: _ =>
    if marker = "L" ∧ value = "business.type" then (true, acc.2)
    else if marker = "l" ∧ value ∈ businessTypes then (acc.1, some value)
    else acc
  | _ => acc

/-- The whole tag loop of `search_business_profiles`:
`(has_business_type_tag, profile_business_type)`. -/
def sbpScan (tags : List (List String)) : Bool × Option String :=
  tags.foldl sbpScanStep (false, none)

/-- A `search_business_profiles` result. -/
structure BusinessHit where
  profile : ProfileContent
  pubkey : String
  business_type : Option String
  tags : List (List String)
deriving Repr, DecidableEq, Inhabited

/-- The query test of `search_business_profiles` (applied only when the query
is non-empty): the whole lowered query as a substring of one of the scalar
fields, the business-type text, or the joined content hashtags (event
`"t"`-tags are *not* searched on this path). -/
def sbpQueryMatches (q : String) (pc : ProfileContent) (bt : Option String) : Bool :=
  containsSubstr (lowerChars pc.name) (lowerChars q) ||
  containsSubstr (lowerChars pc.display_name) (lowerChars q) ||
  containsSubstr (lowerChars pc.about) (lowerChars q) ||
  containsSubstr (lowerChars pc.nip05) (lowerChars q) ||
  containsSubstr (lowerChars (bt.getD "")) (lowerChars q) ||
  containsSubstr (lowerChars pc.country) (lowerChars q) ||
  containsSubstr (lowerChars pc.city) (lowerChars q) ||
  containsSubstr (lowerChars pc.state) (lowerChars q) ||
  containsSubstr (lowerChars pc.zip_code) (lowerChars q) ||
  containsSubstr (lowerChars pc.street) (lowerChars q) ||
  containsSubstr (hashtagsText pc.hashtags) (lowerChars q)

/-- `Database.search_business_profiles`: kind-0 rows in `created_at`
descending order; rows without the `L business.type` flag or without a
category are skipped; a truthy `business_type` argument filters by exact
match; a non-empty query must be a substring of some field; results carry the
*last*-match business type found by `sbpScan`. -/
def search_business_profiles (decode : String → Option ProfileContent)
    (q : String) (btFilter : Option String) (st : List Row) : List BusinessHit :=
  (sortByCreatedAtDesc (st.filter (fun r => r.kind == 0))).filterMap (fun r =>
    match decode r.content with
    | none => none
    | some pc =>
      if !(sbpScan r.tags).1 || (sbpScan r.tags).2 == none then none
      else if btFilter.getD "" ≠ "" ∧ (sbpScan r.tags).2 ≠ some (btFilter.getD "") then none
      else if q ≠ "" ∧ ¬ sbpQueryMatches q pc (sbpScan r.tags).2 then none
      else some ⟨pc, r.pubkey, (sbpScan r.tags).2, r.tags⟩)

/-- A tag of the category shape: `["l", v, ...]` with `v` in the enum. -/
def isCategoryTag (t : List String) : Bool :=
  decide (2 ≤ t.length ∧ t.getD 0 "" = "l" ∧ t.getD 1 "" ∈ businessTypes)

/-- The category value carried by a (category) tag. -/
def tagSecond (t : List String) : String := t.getD 1 ""

theorem isCategoryTag_cons2 (m v : String) (tl : List String) :
    isCategoryTag (m :: v :: tl) = true ↔ (m = "l" ∧ v ∈ businessTypes) := by
  unfold isCategoryTag
  simp only [decide_eq_true_eq, List.length_cons, List.getD_cons_zero, List.getD_cons_succ]
  constructor
  · rintro ⟨_, h2, h3⟩
    exact ⟨h2, h3⟩
  · rintro ⟨h2, h3⟩
    exact ⟨by omega, h2, h3⟩

theorem isCategoryTag_short (t : List String) (h : t.length < 2) :
    isCategoryTag t = false := by
  unfold isCategoryTag
  simp only [decide_eq_false_iff_not]
  rintro ⟨hlen, _⟩
  omega

/-- The break-on-first-match loop equals `find?` over the category-tag
shape. -/
theorem firstBusinessType_eq_find (tags : List (List String)) :
    firstBusinessType tags = (tags.find? isCategoryTag).map tagSecond := by
  induction tags with
  | nil => rfl
  | cons t rest ih =>
    cases t with
    | nil =>
      rw [List.find?_cons_of_neg _ (by simp [isCategoryTag_short ([] : List String) (by simp)])]
      exact ih
    | cons marker tl =>
      cases tl with
      | nil =>
        rw [List.find?_cons_of_neg _ (by simp [isCategoryTag_short [marker] (by simp)])]
        exact ih
      | cons value tl' =>
        show (if marker = "l" ∧ value ∈ businessTypes then some value
              else firstBusinessType rest) = _
        by_cases h : marker = "l" ∧ value ∈ businessTypes
        · rw [if_pos h, List.find?_cons_of_pos _ ((isCategoryTag_cons2 _ _ _).mpr h)]
          rfl
        · rw [if_neg h,
            List.find?_cons_of_neg _ (fun hc => h ((isCategoryTag_cons2 _ _ _).mp hc))]
          exact ih

/-- The no-break loop keeps the *last* category tag: `find?` over the
reversed tag list. -/
theorem sbpScan_foldl (tags : List (List String)) :
    ∀ acc : Bool × Option String,
      (tags.foldl sbpScanStep acc).2 =
        match tags.reverse.find? isCategoryTag with
        | some t => some (tagSecond t)
        | none => acc.2 := by
  induction tags with
  | nil => intro acc; rfl
  | cons t rest ih =>
    intro acc
    rw [List.foldl_cons, ih]
    rw [List.reverse_cons, List.find?_append]
    have hstep2 : (sbpScanStep acc t).2 =
        if isCategoryTag t = true then some (tagSecond t) else acc.2 := by
      cases t with
      | nil =>
        rw [if_neg (by simp [isCategoryTag_short ([] : List String) (by simp)])]
        rfl
      | cons marker tl =>
        cases tl with
        | nil =>
          rw [if_neg (by simp [isCategoryTag_short [marker] (by simp)])]
          rfl
        | cons value tl' =>
          show (if marker = "L" ∧ value = "business.type" then (true, acc.2)
                else if marker = "l" ∧ value ∈ businessTypes then (acc.1, some value)
                else acc).2 = _
          by_cases hL : marker = "L" ∧ value = "business.type"
          · rw [if_pos hL]
            rw [if_neg (by
              rw [isCategoryTag_cons2]
              rintro ⟨h1, _⟩
              rw [hL.1] at h1
              exact absurd h1 (by decide))]
          · rw [if_neg hL]
            by_cases hl : marker = "l" ∧ value ∈ businessTypes
            · rw [if_pos hl, if_pos ((isCategoryTag_cons2 _ _ _).mpr hl)]
              rfl
            · rw [if_neg hl,
                if_neg (by rw [isCategoryTag_cons2]; exact hl)]
    rcases hft : List.find? isCategoryTag [t] with _ | v
    · have hpt : isCategoryTag t = false := by
        rcases h : isCategoryTag t
        · rfl
        · rw [List.find?_cons_of_pos _ h] at hft
          exact Option.noConfusion hft
      rcases hfr : rest.reverse.find? isCategoryTag with _ | u
      · simp only [Option.none_or, hft]
        rw [hstep2, if_neg (by simp [hpt])]
      · simp only [Option.or_some]
    · have hpt : isCategoryTag t = true := by
        rcases h : isCategoryTag t
        · rw [List.find?_cons_of_neg _ (by simp [h])] at hft
          exact Option.noConfusion hft
        · rfl
      have hvt : v = t := by
        rw [List.find?_cons_of_pos _ hpt] at hft
        exact (Option.some.inj hft).symm
      subst hvt
      rcases hfr : rest.reverse.find? isCategoryTag with _ | u
      · simp only [Option.none_or, hft]
        rw [hstep2, if_pos hpt]
      · simp only [Option.or_some]

theorem sbpScan_eq_last_find (tags : List (List String)) :
    (sbpScan tags).2 = (tags.reverse.find? isCategoryTag).map tagSecond := by
  unfold sbpScan
  rw [sbpScan_foldl]
  rcases h : tags.reverse.find? isCategoryTag with _ | u <;> simp

/-- C7, amended.  A category tag is a tag shaped `["l", v, ...]` with `v` in
the closed enum.  Profile resolution (`get_resource_data`) and profile
listing (`list_profiles`) project the category of the *first* such tag in
stored tag-list order (their loops `break`); business-profile search
(`search_business_profiles`), whose loop has no `break`, projects the *last*
such tag — when several category tags are present the paths disagree
(`C7_counterexample`). -/
theorem C7_category_projection
    (decode : String → Option ProfileContent) (st : List Row) :
    (∀ uri pk rest r, uriSegments uri = pk :: "profile" :: rest →
      latestProfileRow st pk = some r →
      get_resource_data st uri =
        some (.profile r.content r.created_at
          ((r.tags.find? isCategoryTag).map tagSecond))) ∧
    (∀ limit offset entry, entry ∈ list_profiles decode limit offset st →
      entry.business_type = (entry.tags.find? isCategoryTag).map tagSecond) ∧
    (∀ q btFilter hit, hit ∈ search_business_profiles decode q btFilter st →
      hit.business_type = (hit.tags.reverse.find? isCategoryTag).map tagSecond) := by
  refine ⟨?_, ?_, ?_⟩
  · intro uri pk rest r hseg hrow
    unfold get_resource_data
    rw [hseg]
    simp [hrow, firstBusinessType_eq_find]
  · intro limit offset entry hmem
    obtain ⟨r', _, hf⟩ := List.mem_filterMap.mp hmem
    rcases hdec' : decode r'.content with _ | pc'
    · simp only [hdec'] at hf
      exact Option.noConfusion hf
    · simp only [hdec'] at hf
      injection hf with hf
      have hbt : entry.business_type = firstBusinessType r'.tags :=
        (congrArg ProfileListEntry.business_type hf).symm
      have htags : entry.tags = r'.tags :=
        (congrArg ProfileListEntry.tags hf).symm
      rw [hbt, htags, firstBusinessType_eq_find]
  · intro q btFilter hit hmem
    obtain ⟨r', _, hf⟩ := List.mem_filterMap.mp hmem
    rcases hdec' : decode r'.content with _ | pc'
    · simp only [hdec'] at hf
      exact Option.noConfusion hf
    · simp only [hdec'] at hf
      by_cases h1 : !(sbpScan r'.tags).1 || (sbpScan r'.tags).2 == none
      · rw [if_pos h1] at hf
        exact Option.noConfusion hf
      · rw [if_neg h1] at hf
        by_cases h2 : btFilter.getD "" ≠ "" ∧ (sbpScan r'.tags).2 ≠ some (btFilter.getD "")
        · rw [if_pos h2] at hf
          exact Option.noConfusion hf
        · rw [if_neg h2] at hf
          by_cases h3 : q ≠ "" ∧ ¬ sbpQueryMatches q pc' (sbpScan r'.tags).2
          · rw [if_pos h3] at hf
            exact Option.noConfusion hf
          · rw [if_neg h3] at hf
            injection hf with hf
            have hbt : hit.business_type = (sbpScan r'.tags).2 :=
              (congrArg BusinessHit.business_type hf).symm
            have htags : hit.tags = r'.tags :=
              (congrArg BusinessHit.tags hf).symm
            rw [hbt, htags, sbpScan_eq_last_find]

/-- Witness for C7: resolving a profile whose tags carry two category tags
(`service` then `other`) projects the first one, `service`. -/
theorem C7_witness :
    get_resource_data
        (runCalls [] [⟨"p9", "pkC", 0, "profile-content", 50,
          [["l", "service"], ["l", "other"]]⟩])
        "nostr://pkC/profile" =
      some (.profile "profile-content" 50 (some "service")) := by
  have h := (C7_category_projection (fun _ => none)
      (runCalls [] [⟨"p9", "pkC", 0, "profile-content", 50,
        [["l", "service"], ["l", "other"]]⟩])).1 "nostr://pkC/profile" "pkC" []
    (mkRow ⟨"p9", "pkC", 0, "profile-content", 50,
      [["l", "service"], ["l", "other"]]⟩ none)
    (by decide) (by decide)
  exact h.trans (by decide)

/-- Counterexample to C7 as frozen: with tags
`[["L","business.type"], ["l","retail"], ["l","other"]]`, business-profile
search reports `other` (the last category tag) while the first-match rule —
followed by profile resolution, listing and profile search — yields
`retail`. -/
theorem C7_counterexample :
    search_business_profiles (fun s => if s = "bp" then some {} else none) "" none
        [⟨"b1", "pkB", 0, "bp", 9, none,
          [["L", "business.type"], ["l", "retail"], ["l", "other"]]⟩] =
      [⟨{}, "pkB", some "other",
        [["L", "business.type"], ["l", "retail"], ["l", "other"]]⟩] ∧
    firstBusinessType [["L", "business.type"], ["l", "retail"], ["l", "other"]] =
      some "retail" := by
  exact ⟨by decide, by decide⟩

/-! ## Profile deduplication (`OpenAIAgent._deduplicate_profiles`,
applied by `call_function("search_profiles", ...)` before the limit slice) -/

/-- The duplicate-detection key: the lower-cased, stripped `display_name` if
truthy, else `name`, else `website`, else the profile's own `pubkey`
(`profile.get("pubkey", "")`, taken verbatim). -/
def dupKey (p : ProfileHit) : List Char :=
  if p.profile.display_name ≠ "" then stripChars (lowerChars p.profile.display_name)
  else if p.profile.name ≠ "" then stripChars (lowerChars p.profile.name)
  else if p.profile.website ≠ "" then stripChars (lowerChars p.profile.website)
  else p.pubkey.data

/-- Append `p` to the (first) group keyed `k`, or add a new group at the end
(Python dicts preserve insertion order). -/
def insertGrouped (k : List Char) (p : ProfileHit) :
    List (List Char × List ProfileHit) → List (List Char × List ProfileHit)
  | [] => [(k, [p])]
  | (k', ps) :: rest =>
    if k = k' then (k', ps ++ [p]) :: rest else (k', ps) :: insertGrouped k p rest

/-- The grouping loop: profiles whose computed key is empty fail the
`if duplicate_key:` guard and join no group at all. -/
def buildGroups : List ProfileHit → List (List Char × List ProfileHit) →
    List (List Char × List ProfileHit)
  | [], gs => gs
  | p :: rest, gs =>
    buildGroups rest (if dupKey p = [] then gs else insertGrouped (dupKey p) p gs)

/-- Preference inside a group of duplicates: the first production profile,
else the first profile that is neither production nor demo, else the first
demo profile, else the first profile. -/
def pickPreferred (g : List ProfileHit) : ProfileHit :=
  match g.filter (fun p => p.profile.environment == "production") with
  | p :: _ => p
  | [] =>
    match g.filter (fun p =>
        p.profile.environment != "production" && p.profile.environment != "demo") with
    | p :: _ => p
    | [] =>
      match g.filter (fun p => p.profile.environment == "demo") with
      | p :: _ => p
      | [] => g.headD default

/-- The `len(group) == 1` short-circuit of the source. -/
def pickFromGroup (g : List ProfileHit) : ProfileHit :=
  match g with
  | [p] => p
  | _ => pickPreferred g

/-- `OpenAIAgent._deduplicate_profiles`: group by `dupKey`, keep one
representative per group, in group-creation order. -/
def deduplicate_profiles (profiles : List ProfileHit) : List ProfileHit :=
  (buildGroups profiles []).map (fun g => pickFromGroup g.2)

/-- The group stored under key `k` (first matching entry, as Python's dict
lookup). -/
def groupOf (k : List Char) (gs : List (List Char × List ProfileHit)) : List ProfileHit :=
  match gs.find? (fun e => e.1 == k) with
  | some e => e.2
  | none => []

theorem groupOf_cons_of_eq {k k₀ : List Char} (ps : List ProfileHit)
    (rest : List (List Char × List ProfileHit)) (h : k₀ = k) :
    groupOf k ((k₀, ps) :: rest) = ps := by
  unfold groupOf
  rw [List.find?_cons_of_pos _ (by simpa using h)]

theorem groupOf_cons_of_ne {k k₀ : List Char} (ps : List ProfileHit)
    (rest : List (List Char × List ProfileHit)) (h : k₀ ≠ k) :
    groupOf k ((k₀, ps) :: rest) = groupOf k rest := by
  unfold groupOf
  rw [List.find?_cons_of_neg _ (by simpa using h)]

theorem groupOf_insertGrouped (k k' : List Char) (p : ProfileHit)
    (gs : List (List Char × List ProfileHit)) :
    groupOf k (insertGrouped k' p gs) =
      if k = k' then groupOf k gs ++ [p] else groupOf k gs := by
  induction gs with
  | nil =>
    show groupOf k [(k', [p])] = _
    by_cases h : k = k'
    · rw [if_pos h, groupOf_cons_of_eq _ _ h.symm]
      rfl
    · rw [if_neg h, groupOf_cons_of_ne _ _ (Ne.symm h)]
  | cons e rest ih =>
    obtain ⟨k₀, ps⟩ := e
    show groupOf k (if k' = k₀ then (k₀, ps ++ [p]) :: rest
      else (k₀, ps) :: insertGrouped k' p rest) = _
    by_cases h1 : k' = k₀
    · rw [if_pos h1]
      by_cases h2 : k = k₀
      · rw [groupOf_cons_of_eq _ _ h2.symm, if_pos (h2.trans h1.symm),
          groupOf_cons_of_eq _ _ h2.symm]
      · rw [groupOf_cons_of_ne _ _ (fun hh => h2 hh.symm),
          if_neg (fun hh => h2 (hh.trans h1)),
          groupOf_cons_of_ne _ _ (fun hh => h2 hh.symm)]
    · rw [if_neg h1]
      by_cases h2 : k = k₀
      · rw [groupOf_cons_of_eq _ _ h2.symm,
          if_neg (fun hh => h1 (hh.symm.trans h2)),
          groupOf_cons_of_eq _ _ h2.symm]
      · rw [groupOf_cons_of_ne _ _ (fun hh => h2 hh.symm), ih,
          groupOf_cons_of_ne _ _ (fun hh => h2 hh.symm)]

theorem groupOf_buildGroups (k : List Char) (hk : k ≠ []) :
    ∀ (ps : List ProfileHit) (gs : List (List Char × List ProfileHit)),
      groupOf k (buildGroups ps gs) =
        groupOf k gs ++ ps.filter (fun p => dupKey p == k)
  | [], gs => by simp [buildGroups]
  | p :: rest, gs => by
    show groupOf k (buildGroups rest
      (if dupKey p = [] then gs else insertGrouped (dupKey p) p gs)) = _
    by_cases hp : dupKey p = []
    · rw [if_pos hp, groupOf_buildGroups k hk rest gs]
      have : (dupKey p == k) = false := by
        simp only [beq_eq_false_iff_ne, ne_eq]
        rw [hp]
        exact fun hh => hk hh.symm
      rw [List.filter_cons, this]
      simp
    · rw [if_neg hp, groupOf_buildGroups k hk rest _, groupOf_insertGrouped]
      by_cases hkp : k = dupKey p
      · rw [if_pos hkp, List.filter_cons, (by simpa using hkp.symm : (dupKey p == k) = true)]
        simp
      · rw [if_neg hkp, List.filter_cons,
          (by simpa using (fun hh => hkp hh.symm : dupKey p ≠ k) : (dupKey p == k) = false)]
        simp

/-- The group invariant maintained by `buildGroups`: every entry holds a
non-empty group whose members all carry the entry's (non-empty) key, and
keys are pairwise distinct. -/
def GroupsWF (gs : List (List Char × List ProfileHit)) : Prop :=
  (∀ e ∈ gs, e.2 ≠ [] ∧ e.1 ≠ [] ∧ ∀ p ∈ e.2, dupKey p = e.1) ∧
    (gs.map Prod.fst).Nodup

theorem groupsWF_insertGrouped {gs : List (List Char × List ProfileHit)}
    (hwf : GroupsWF gs) (k : List Char) (p : ProfileHit)
    (hk : k ≠ []) (hp : dupKey p = k) : GroupsWF (insertGrouped k p gs) := by
  induction gs with
  | nil =>
    refine ⟨?_, by simp [insertGrouped]⟩
    intro e he
    rw [show insertGrouped k p [] = [(k, [p])] from rfl, List.mem_singleton] at he
    subst he
    exact ⟨by simp, hk, by simpa using hp⟩
  | cons e₀ rest ih =>
    obtain ⟨k₀, ps⟩ := e₀
    have hhead := hwf.1 (k₀, ps) (List.mem_cons_self _ _)
    have hrest : GroupsWF rest :=
      ⟨fun e he => hwf.1 e (List.mem_cons_of_mem _ he),
        (List.nodup_cons.mp hwf.2).2⟩
    show GroupsWF (if k = k₀ then (k₀, ps ++ [p]) :: rest
      else (k₀, ps) :: insertGrouped k p rest)
    by_cases h1 : k = k₀
    · rw [if_pos h1]
      refine ⟨?_, by simpa using hwf.2⟩
      intro e he
      rcases List.mem_cons.mp he with he | he
      · subst he
        refine ⟨by simp, hhead.2.1, ?_⟩
        intro x hx
        rcases List.mem_append.mp hx with hx | hx
        · exact hhead.2.2 x hx
        · rw [List.mem_singleton.mp hx, hp, h1]
      · exact hwf.1 e (List.mem_cons_of_mem _ he)
    · rw [if_neg h1]
      have hwf' := ih hrest
      refine ⟨?_, ?_⟩
      · intro e he
        rcases List.mem_cons.mp he with he | he
        · subst he
          exact hhead
        · exact hwf'.1 e he
      · rw [List.map_cons, List.nodup_cons]
        refine ⟨?_, hwf'.2⟩
        intro hmem
        -- k₀ appears among the keys of `insertGrouped k p rest`; those are the
        -- keys of `rest`, possibly extended by `k` at the end.
        have hkeys : ∀ gs' : List (List Char × List ProfileHit),
            ∀ x ∈ (insertGrouped k p gs').map Prod.fst,
              x ∈ gs'.map Prod.fst ∨ x = k := by
          intro gs'
          induction gs' with
          | nil =>
            intro x hx
            right
            rw [show insertGrouped k p [] = [(k, [p])] from rfl] at hx
            simpa using hx
          | cons e₁ rest₁ ih₁ =>
            obtain ⟨k₁, ps₁⟩ := e₁
            intro x hx
            show x ∈ ((k₁, ps₁) :: rest₁).map Prod.fst ∨ x = k
            by_cases h2 : k = k₁
            · rw [show insertGrouped k p ((k₁, ps₁) :: rest₁) =
                  (k₁, ps₁ ++ [p]) :: rest₁ from by rw [insertGrouped, if_pos h2]] at hx
              exact Or.inl (by simpa using hx)
            · rw [show insertGrouped k p ((k₁, ps₁) :: rest₁) =
                  (k₁, ps₁) :: insertGrouped k p rest₁ from by
                  rw [insertGrouped, if_neg h2]] at hx
              rcases List.mem_cons.mp hx with hx | hx
              · exact Or.inl (by simp [hx])
              · rcases ih₁ x hx with hx' | hx'
                · exact Or.inl (List.mem_cons_of_mem _ hx')
                · exact Or.inr hx'
        rcases hkeys rest k₀ hmem with hx | hx
        · exact (List.nodup_cons.mp hwf.2).1 hx
        · exact h1 hx.symm

theorem groupsWF_buildGroups :
    ∀ (ps : List ProfileHit) (gs : List (List Char × List ProfileHit)),
      GroupsWF gs → GroupsWF (buildGroups ps gs)
  | [], gs, hwf => hwf
  | p :: rest, gs, hwf => by
    show GroupsWF (buildGroups rest
      (if dupKey p = [] then gs else insertGrouped (dupKey p) p gs))
    by_cases hp : dupKey p = []
    · rw [if_pos hp]
      exact groupsWF_buildGroups rest gs hwf
    · rw [if_neg hp]
      exact groupsWF_buildGroups rest _ (groupsWF_insertGrouped hwf _ p hp rfl)

theorem pickPreferred_mem (g : List ProfileHit) (hg : g ≠ []) : pickPreferred g ∈ g := by
  unfold pickPreferred
  rcases h1 : g.filter (fun p => p.profile.environment == "production") with _ | ⟨p1, t1⟩
  · rw [h1]
    rcases h2 : g.filter (fun p =>
        p.profile.environment != "production" && p.profile.environment != "demo") with _ | ⟨p2, t2⟩
    · rw [h2]
      rcases h3 : g.filter (fun p => p.profile.environment == "demo") with _ | ⟨p3, t3⟩
      · rw [h3]
        cases g with
        | nil => exact absurd rfl hg
        | cons x xs => exact List.mem_cons_self x xs
      · rw [h3]
        exact List.mem_of_mem_filter (h3 ▸ List.mem_cons_self p3 t3)
    · rw [h2]
      exact List.mem_of_mem_filter (h2 ▸ List.mem_cons_self p2 t2)
  · rw [h1]
    exact List.mem_of_mem_filter (h1 ▸ List.mem_cons_self p1 t1)

theorem pickFromGroup_mem (g : List ProfileHit) (hg : g ≠ []) : pickFromGroup g ∈ g := by
  unfold pickFromGroup
  cases g with
  | nil => exact absurd rfl hg
  | cons x xs =>
    cases xs with
    | nil => exact List.mem_cons_self x []
    | cons y ys => exact pickPreferred_mem _ (by simp)

theorem filter_map_pick_of_not_key {k : List Char}
    (gs : List (List Char × List ProfileHit))
    (hwf : ∀ e ∈ gs, e.2 ≠ [] ∧ ∀ p ∈ e.2, dupKey p = e.1)
    (hnk : ∀ e ∈ gs, e.1 ≠ k) :
    (gs.map (fun g => pickFromGroup g.2)).filter (fun p => dupKey p == k) = [] := by
  induction gs with
  | nil => rfl
  | cons e rest ih =>
    have he := hwf e (List.mem_cons_self _ _)
    have hpk : dupKey (pickFromGroup e.2) = e.1 :=
      he.2 _ (pickFromGroup_mem e.2 he.1)
    rw [List.map_cons, List.filter_cons_of_neg (by
      simp only [hpk, beq_iff_eq]
      exact hnk e (List.mem_cons_self _ _))]
    exact ih (fun e' he' => hwf e' (List.mem_cons_of_mem _ he'))
      (fun e' he' => hnk e' (List.mem_cons_of_mem _ he'))

theorem filter_map_pick_of_key {k : List Char} {g : List ProfileHit}
    (gs : List (List Char × List ProfileHit)) (hwfAll : GroupsWF gs)
    (hgrp : groupOf k gs = g) (hg : g ≠ []) :
    (gs.map (fun g => pickFromGroup g.2)).filter (fun p => dupKey p == k) =
      [pickFromGroup g] := by
  induction gs with
  | nil =>
    rw [show groupOf k [] = [] from rfl] at hgrp
    exact absurd hgrp.symm hg
  | cons e rest ih =>
    have he := hwfAll.1 e (List.mem_cons_self _ _)
    have hrestwf : GroupsWF rest :=
      ⟨fun e' he' => hwfAll.1 e' (List.mem_cons_of_mem _ he'),
        (List.nodup_cons.mp hwfAll.2).2⟩
    have hpk : dupKey (pickFromGroup e.2) = e.1 :=
      he.2.2 _ (pickFromGroup_mem e.2 he.1)
    by_cases hke : e.1 = k
    · have hge : e.2 = g := by
        rw [← hgrp]
        obtain ⟨k₀, ps⟩ := e
        exact (groupOf_cons_of_eq _ _ hke).symm
      rw [List.map_cons,
        List.filter_cons_of_pos (by simpa [hpk] using hke), hge]
      have hnodup : e.1 ∉ rest.map Prod.fst := by
        have h0 := hwfAll.2
        rw [List.map_cons, List.nodup_cons] at h0
        exact h0.1
      have hnk : ∀ e' ∈ rest, e'.1 ≠ k := by
        intro e' he' hcontra
        apply hnodup
        have hm : e'.1 ∈ rest.map Prod.fst := List.mem_map.mpr ⟨e', he', rfl⟩
        rw [hcontra, ← hke] at hm
        exact hm
      rw [filter_map_pick_of_not_key rest
        (fun e' he' => ⟨(hrestwf.1 e' he').1, (hrestwf.1 e' he').2.2⟩) hnk]
    · have hgrp' : groupOf k rest = g := by
        rw [← hgrp]
        obtain ⟨k₀, ps⟩ := e
        exact (groupOf_cons_of_ne _ _ hke).symm
      rw [List.map_cons,
        List.filter_cons_of_neg (by simp only [hpk, beq_iff_eq]; exact hke)]
      exact ih hrestwf hgrp'

/-- C5, amended.  Whenever two or more result profiles share the same
*non-empty* duplicate key (lower-cased stripped `display_name`, else `name`,
else `website`, else the profile's own pubkey), `_deduplicate_profiles`
keeps exactly one of them: the first with environment `"production"`, else
the first whose environment is neither `"production"` nor `"demo"`, else the
first with environment `"demo"` (this is `pickPreferred`, transcribed from
the source).  When the shared key is the *empty* string — e.g. a
whitespace-only display name — the `if duplicate_key:` guard instead drops
every such profile, keeping zero (`C5_counterexample`). -/
theorem C5_dedup_keeps_one (profiles : List ProfileHit) (k : List Char) (hk : k ≠ [])
    (h2 : 2 ≤ (profiles.filter (fun p => dupKey p == k)).length) :
    (deduplicate_profiles profiles).filter (fun p => dupKey p == k) =
      [pickPreferred (profiles.filter (fun p => dupKey p == k))] := by
  have hgrp : groupOf k (buildGroups profiles []) =
      profiles.filter (fun p => dupKey p == k) := by
    rw [groupOf_buildGroups k hk profiles []]
    rfl
  have hwf : GroupsWF (buildGroups profiles []) :=
    groupsWF_buildGroups profiles [] ⟨by simp, by simp⟩
  have hgne : profiles.filter (fun p => dupKey p == k) ≠ [] := by
    intro hcontra
    rw [hcontra] at h2
    simp at h2
  have hmain := filter_map_pick_of_key (buildGroups profiles []) hwf hgrp hgne
  unfold deduplicate_profiles
  rw [hmain]
  rcases hG : profiles.filter (fun p => dupKey p == k) with _ | ⟨x, t⟩
  · exact absurd hG hgne
  · rcases t with _ | ⟨y, t'⟩
    · rw [hG] at h2
      simp at h2
    · rfl

/-- Witness for C5: two profiles with display name `"Acme Store"`, the first
demo and the second production — dedup keeps exactly the production one. -/
theorem C5_witness :
    (deduplicate_profiles
        [⟨{display_name := "Acme Store", environment := "demo"}, "pkDemo", none, []⟩,
         ⟨{display_name := "Acme Store", environment := "production"}, "pkProd", none, []⟩]).filter
        (fun p => dupKey p == "acme store".data) =
      [⟨{display_name := "Acme Store", environment := "production"}, "pkProd", none, []⟩] := by
  have h := C5_dedup_keeps_one
    [⟨{display_name := "Acme Store", environment := "demo"}, "pkDemo", none, []⟩,
     ⟨{display_name := "Acme Store", environment := "production"}, "pkProd", none, []⟩]
    "acme store".data (by decide) (by decide)
  rw [h]
  decide

/-- Counterexample to C5 as frozen: two profiles sharing the duplicate key
computed from a whitespace-only display name (one production, one demo) are
*both dropped*: the returned list keeps zero of them, not one. -/
theorem C5_counterexample :
    dupKey (⟨{display_name := " ", environment := "production"}, "pk1", none, []⟩ : ProfileHit) =
      dupKey (⟨{display_name := " ", environment := "demo"}, "pk2", none, []⟩ : ProfileHit) ∧
    deduplicate_profiles
      [⟨{display_name := " ", environment := "production"}, "pk1", none, []⟩,
       ⟨{display_name := " ", environment := "demo"}, "pk2", none, []⟩] = [] := by
  exact ⟨by decide, by decide⟩

/-! ## Refresh coordinator (`refresh_database` in `src/mcp/server.py`) -/

/-- A record fetched from the external source during a refresh cycle:
`public_key = profile.get_public_key("hex")` and
`created_at = profile.get_created_at()` (also stored into `last_updated`,
which `upsert_profile` uses as the write timestamp).  The remaining profile
payload is opaque for the reconciliation decision. -/
structure FetchedProfile where
  public_key : String
  created_at : Int
  payload : String
deriving Repr, DecidableEq, Inhabited

/-- The `created_at` that `refresh_database` reads off the stored
counterpart: `get_resource_data(f"nostr://{pk}/profile")` attaches the stored
row's `created_at` to the returned dict; no kind-0 row gives `None`.  (Stored
content is assumed JSON-decodable, as everything `upsert_profile` writes
is.) -/
def storedProfileCreatedAt (st : List Row) (pk : String) : Option Int :=
  (latestProfileRow st pk).map (fun r => r.created_at)

/-- The per-record reconciliation decision of `refresh_database`: with a
stored counterpart, skip on an equal timestamp, then skip on an
older-or-equal one; otherwise call `upsert_profile` once.  The result is the
list of attempted writes (`[]` or `[rec]`). -/
def reconcileStep (st : List Row) (rec : FetchedProfile) : List FetchedProfile :=
  match storedProfileCreatedAt st rec.public_key with
  | some existing =>
    if rec.created_at = existing then []
    else if rec.created_at ≤ existing then []
    else [rec]
  | none => [rec]

/-- C8: during a refresh cycle, a fetched record whose stored counterpart
exists triggers no write when its `created_at` is not strictly greater than
the stored one, and exactly one write when it is strictly greater or when no
counterpart exists. -/
theorem C8_refresh_skips_stale (st : List Row) (rec : FetchedProfile) :
    (∀ existing, storedProfileCreatedAt st rec.public_key = some existing →
      rec.created_at ≤ existing → reconcileStep st rec = []) ∧
    (∀ existing, storedProfileCreatedAt st rec.public_key = some existing →
      existing < rec.created_at → (reconcileStep st rec).length = 1) ∧
    (storedProfileCreatedAt st rec.public_key = none →
      (reconcileStep st rec).length = 1) := by
  refine ⟨?_, ?_, ?_⟩
  · intro ex hex hle
    unfold reconcileStep
    rw [hex]
    show (if rec.created_at = ex then ([] : List FetchedProfile)
      else if rec.created_at ≤ ex then [] else [rec]) = []
    by_cases heq : rec.created_at = ex
    · rw [if_pos heq]
    · rw [if_neg heq, if_pos hle]
  · intro ex hex hlt
    unfold reconcileStep
    rw [hex]
    show (if rec.created_at = ex then ([] : List FetchedProfile)
      else if rec.created_at ≤ ex then [] else [rec]).length = 1
    rw [if_neg (by omega), if_neg (by omega)]
    rfl
  · intro hnone
    unfold reconcileStep
    rw [hnone]
    rfl

/-- Witness for C8: against a store whose profile row has timestamp 100, a
fetched record at 50 is skipped and a fetched record at 200 is written
exactly once. -/
theorem C8_witness :
    reconcileStep (runCalls [] [⟨"f1", "pkF", 0, "cf", 100, []⟩]) ⟨"pkF", 50, "pl"⟩ = [] ∧
    (reconcileStep (runCalls [] [⟨"f1", "pkF", 0, "cf", 100, []⟩]) ⟨"pkF", 200, "pl2"⟩).length
      = 1 := by
  constructor
  · exact (C8_refresh_skips_stale _ _).1 100 (by decide) (by decide)
  · exact (C8_refresh_skips_stale _ _).2.1 100 (by decide) (by decide)

/-! ## Storage-engine failure handling -/

/-- An injected storage-engine outcome: `some msg` models a `sqlite3.Error`
raised inside an operation's `try` block, `none` a normal execution. -/
abbrev EngineFault := Option String

/-- `Database.upsert_event`'s error boundary: on a storage-engine error the
write is not committed (modelled as state kept) and `False` is returned;
otherwise the write applies and `True` is returned. -/
def upsert_event_op (fault : EngineFault) (c : UpsertCall) (st : List Row) :
    List Row × Bool :=
  match fault with
  | some _ => (st, false)
  | none => (upsert_event c st, true)

/-- `Database.clear_all_data` (`DELETE FROM events`): `False` on engine
error, `True` after emptying the table. -/
def clear_all_data_op (fault : EngineFault) (st : List Row) : List Row × Bool :=
  match fault with
  | some _ => (st, false)
  | none => ([], true)

/-- `Database.get_resource_rows` (Python `if d_tag:` sends an empty-string
d-tag down the unfiltered branch): `(id, content, created_at, tags)` rows,
`[]` on engine error. -/
def get_resource_rows_op (fault : EngineFault) (kind : Int) (pubkey : String)
    (d_tag : Option String) (st : List Row) :
    List (String × String × Int × List (List String)) :=
  match fault with
  | some _ => []
  | none =>
    ((match d_tag with
      | some d =>
        if d = "" then kindRowsFor kind pubkey st
        else sortByCreatedAtDesc (st.filter (fun r =>
          r.kind == kind && r.pubkey == pubkey && r.d_tag == some d))
      | none => kindRowsFor kind pubkey st) : List Row).map
      (fun r => (r.id, r.content, r.created_at, r.tags))

/-- `Database.search_profiles` behind its engine boundary. -/
def search_profiles_op (fault : EngineFault) (decode : String → Option ProfileContent)
    (q : String) (st : List Row) : List ProfileHit :=
  match fault with
  | some _ => []
  | none => search_profiles decode q st

/-- `Database.search_products` behind its engine boundary. -/
def search_products_op (fault : EngineFault) (decode : String → Option ProductContent)
    (q : String) (pubkey : Option String) (st : List Row) : List ProductHit :=
  match fault with
  | some _ => []
  | none => search_products decode q pubkey st

/-- `Database.search_business_profiles` behind its engine boundary. -/
def search_business_profiles_op (fault : EngineFault)
    (decode : String → Option ProfileContent) (q : String) (btFilter : Option String)
    (st : List Row) : List BusinessHit :=
  match fault with
  | some _ => []
  | none => search_business_profiles decode q btFilter st

/-- `Database.list_profiles` behind its engine boundary. -/
def list_profiles_op (fault : EngineFault) (decode : String → Option ProfileContent)
    (limit offset : Nat) (st : List Row) : List ProfileListEntry :=
  match fault with
  | some _ => []
  | none => list_profiles decode limit offset st

/-- C9: with an initialized connection, every storage-engine error is
absorbed at the operation boundary: `upsert_event` and `clear_all_data`
return `False`, and the search/list/row-accessor operations return the empty
list.  Each `*_op` is a total function into a plain result type, so no
engine exception crosses the store's public surface. -/
theorem C9_engine_errors_absorbed (msg : String) (c : UpsertCall) (st : List Row)
    (kind : Int) (pubkey : String) (d_tag : Option String)
    (decode : String → Option ProfileContent) (decodeP : String → Option ProductContent)
    (q : String) (pk : Option String) (bt : Option String) (limit offset : Nat) :
    upsert_event_op (some msg) c st = (st, false) ∧
    clear_all_data_op (some msg) st = (st, false) ∧
    get_resource_rows_op (some msg) kind pubkey d_tag st = [] ∧
    search_profiles_op (some msg) decode q st = [] ∧
    search_products_op (some msg) decodeP q pk st = [] ∧
    search_business_profiles_op (some msg) decode q bt st = [] ∧
    list_profiles_op (some msg) decode limit offset st = [] :=
  ⟨rfl, rfl, rfl, rfl, rfl, rfl, rfl⟩

end NostrMarket
